import Mathlib

set_option linter.unusedVariables false

/-
Verification of the board router (src/server/api/routers/board.ts).

The TypeScript source is shallowly embedded: JavaScript values handled by
the widget-option reconstruction become the inductive type JVal, the
relational tables touched by the endpoints become explicit lists of rows,
and a thrown exception becomes a none / Except.error result.
-/

/-- A JavaScript runtime value as manipulated by the option reconstruction
(mapOptions / addAtPath).  Arrays carry their element list together with
the non-index properties JavaScript permits on array objects.  A float is
kept symbolically as the string it was parsed from (the program only ever
constructs floats, it never computes with them); parseInt results that are
NaN get their own constructor. -/
inductive JVal where
  | obj : List (String × JVal) → JVal
  | arr : List JVal → List (String × JVal) → JVal
  | str : String → JVal
  | jint : Int → JVal
  | jfloat : String → JVal
  | nan : JVal
  | jbool : Bool → JVal
  | jnull : JVal
  | undef : JVal

/-- Property lookup in an object's field list (first binding wins, as for
JavaScript objects, whose keys are unique). -/
def lookupField (fields : List (String × JVal)) (k : String) : Option JVal :=
  match fields with
  | [] => none
  | (k2, v) :: rest => if k2 = k then some v else lookupField rest k

/-- Property write: an existing key keeps its position (JavaScript objects
preserve insertion order), a new key is appended. -/
def setField (fields : List (String × JVal)) (k : String) (v : JVal) :
    List (String × JVal) :=
  match fields with
  | [] => [(k, v)]
  | (k2, w) :: rest => if k2 = k then (k2, v) :: rest else (k2, w) :: setField rest k v

/-- Writing an array element at index n; JavaScript extends a too-short
array with holes, which read back as undefined. -/
def padSet (elems : List JVal) (n : Nat) (v : JVal) : List JVal :=
  if n < elems.length then elems.set n v
  else elems ++ List.replicate (n - elems.length) JVal.undef ++ [v]

/-- Numeric value of a list of decimal digit characters. -/
def digitsVal (cs : List Char) : Nat :=
  cs.foldl (fun n c => n * 10 + (c.toNat - 48)) 0

def strToNat (s : String) : Nat := digitsVal s.data

/-- Whether a string is a canonical JavaScript array index: a decimal
numeral without leading zeros whose value is below 2^32 - 1.  Assigning
such a key on an array writes an element; any other key becomes a plain
property. -/
def isArrayIndexStr (s : String) : Bool :=
  !s.data.isEmpty && s.data.all Char.isDigit &&
    (s.data.head? != some '0' || s == "0") && strToNat s < 4294967295

/-- Longest decimal-digit prefix, none when there is none (parseInt NaN). -/
def digitsPrefix (cs : List Char) : Option Nat :=
  match cs.takeWhile Char.isDigit with
  | [] => none
  | ds => some (digitsVal ds)

/-- The sign-and-digits part of parseInt, applied after whitespace is
skipped. -/
def jsParseIntAux : List Char → Option Int
  | [] => none
  | c :: rest =>
    if c = '-' then (digitsPrefix rest).map (fun n => -(n : Int))
    else if c = '+' then (digitsPrefix rest).map (fun n => (n : Int))
    else (digitsPrefix (c :: rest)).map (fun n => (n : Int))

/-- JavaScript parseInt(s, 10): skip leading whitespace, an optional sign,
then the longest prefix of decimal digits; none models NaN. -/
def jsParseInt (s : String) : Option Int :=
  jsParseIntAux (s.data.dropWhile Char.isWhitespace)

/-- Reading arr[i] for a parseInt result i: a canonical in-range index
reads the element, everything else (NaN, negative, huge) reads the
property named by the number's string form. -/
def jsArrGet (elems : List JVal) (props : List (String × JVal)) (pi : Option Int) : JVal :=
  match pi with
  | none => (lookupField props "NaN").getD .undef
  | some i =>
    if 0 ≤ i ∧ i < 4294967295 then (elems[i.toNat]?).getD .undef
    else (lookupField props (toString i)).getD JVal.undef

/-- One JavaScript assignment cur[k] = v.  none models the TypeError a
strict-mode module throws when cur is a primitive, null or undefined.
Assigning the special length property of an array is modelled as a plain
property write; no theorem below exercises that key. -/
def jsSet (cur : JVal) (k : String) (v : JVal) : Option JVal :=
  match cur with
  | .obj fields => some (.obj (setField fields k v))
  | .arr elems props =>
    if isArrayIndexStr k then some (.arr (padSet elems (strToNat k) v) props)
    else some (.arr elems (setField props k v))
  | _ => none

/-- The mutation performed by addAtPath, written functionally: walk the
non-final path components exactly as the source's forEach does (arrays via
parseInt, objects via the raw key, primitives leave current unchanged,
null throws) and assign v at the last key.  The functional write-back at
each step is equivalent to the source's in-place mutation because every
node of the tree under construction is reachable along exactly one path
(the code only ever inserts fresh empty containers and primitives). -/
def navWrite (cur : JVal) (ks : List String) (lastKey : String) (v : JVal) : Option JVal :=
  match ks with
  | [] => jsSet cur lastKey v
  | k :: rest =>
    match cur with
    | .obj fields =>
      (navWrite ((lookupField fields k).getD .undef) rest lastKey v).map
        (fun c => .obj (setField fields k c))
    | .arr elems props =>
      match jsParseInt k with
      | some i =>
        if 0 ≤ i ∧ i < 4294967295 then
          if i.toNat < elems.length then
            (navWrite ((elems[i.toNat]?).getD .undef) rest lastKey v).map
              (fun c => .arr (elems.set i.toNat c) props)
          else
            (navWrite .undef rest lastKey v).map
              (fun c => .arr (padSet elems i.toNat c) props)
        else
          (navWrite ((lookupField props (toString i)).getD .undef) rest lastKey v).map
            (fun c => .arr elems (setField props (toString i) c))
      | none =>
        (navWrite ((lookupField props "NaN").getD .undef) rest lastKey v).map
          (fun c => .arr elems (setField props "NaN" c))
    | .jnull => none
    | other => navWrite other rest lastKey v

/-- The navigation loop alone (used when the if-chain of addAtPath assigns
nothing, which happens for a number row with an empty value); it can still
throw, on a null dereference. -/
def navigate (cur : JVal) (ks : List String) : Option JVal :=
  match ks with
  | [] => some cur
  | k :: rest =>
    match cur with
    | .obj fields => navigate ((lookupField fields k).getD .undef) rest
    | .arr elems props => navigate (jsArrGet elems props (jsParseInt k)) rest
    | .jnull => none
    | other => navigate other rest

/-- path.split on a dot, on the character list (JavaScript semantics:
an empty string yields one empty chunk, adjacent dots yield empty
chunks). -/
def splitChunks : List Char → List (List Char)
  | [] => [[]]
  | c :: rest =>
    if c = '.' then [] :: splitChunks rest
    else
      match splitChunks rest with
      | [] => [[c]]
      | ch :: chs => (c :: ch) :: chs

def splitOnDot (s : String) : List String :=
  (splitChunks s.data).map String.mk

def joinChunks : List (List Char) → List Char
  | [] => []
  | [ch] => ch
  | ch :: chs => ch ++ '.' :: joinChunks chs

def joinComps (comps : List String) : String :=
  String.mk (joinChunks (comps.map String.data))

/-- A widget-option row: a dotted path, a declared type and the raw stored
value (the widgetId column is carried along but never read by the
reconstruction). -/
structure MapOption where
  widgetId : String
  path : String
  type : String
  value : String
deriving DecidableEq

/-- The value the if-chain of addAtPath assigns for a row, none when no
branch fires (an unrecognized type, or a number row whose value is the
empty string and hence falsy). -/
def decodeOpt (r : MapOption) : Option JVal :=
  if r.type = "array" then some (.arr [] [])
  else if r.type = "object" then some (.obj [])
  else if r.type = "number" then
    if r.value ≠ "" then
      some (if r.value.data.contains '.' then .jfloat r.value
            else match jsParseInt r.value with
                 | some i => .jint i
                 | none => .nan)
    else none
  else if r.type = "boolean" then some (.jbool (r.value = "true"))
  else if r.type = "string" then some (.str r.value)
  else if r.type = "null" then some .jnull
  else none

/-- One addAtPath(outerObj, item) call; none models a thrown TypeError. -/
def addAtPath (outer : JVal) (r : MapOption) : Option JVal :=
  let comps := splitOnDot r.path
  let pathArray := comps.dropLast
  let lastKey := comps.getLastD ""
  match decodeOpt r with
  | some v => navWrite outer pathArray lastKey v
  | none =>
    match navigate outer pathArray with
    | some _ => some outer
    | none => none

/-- Code-point comparison of character lists, the order the rows are
sorted in.  The source sorts with localeCompare; the two orders agree on
the only property the algorithm relies on, namely that a dotted prefix
sorts strictly before its extensions. -/
def pathLeB (a b : List Char) : Bool :=
  match a, b with
  | [], _ => true
  | _ :: _, [] => false
  | c :: cs, d :: ds => if c < d then true else if d < c then false else pathLeB cs ds

def optionLe (a b : MapOption) : Prop := pathLeB a.path.data b.path.data = true

instance : DecidableRel optionLe :=
  fun a b => inferInstanceAs (Decidable (_ = true))

/-- The forEach over the sorted rows: insert each row in turn, stopping at
the first thrown TypeError. -/
def runAll (outer : JVal) (rows : List MapOption) : Option JVal :=
  match rows with
  | [] => some outer
  | r :: rest =>
    match addAtPath outer r with
    | some res => runAll res rest
    | none => none

/-- mapOptions: sort the option rows by path and fold them into an
initially empty object; none models a thrown TypeError. -/
def mapOptions (rows : List MapOption) : Option JVal :=
  runAll (.obj []) (List.insertionSort optionLe rows)

/-- Reading the value at a component path of the finished tree: object
steps look up the field; array steps read the element for a canonical
index key and the extra property otherwise. -/
def getPath (v : JVal) (ks : List String) : Option JVal :=
  match ks with
  | [] => some v
  | k :: rest =>
    match v with
    | .obj fields =>
      match lookupField fields k with
      | some c => getPath c rest
      | none => none
    | .arr elems props =>
      if isArrayIndexStr k then
        match elems[strToNat k]? with
        | some c => getPath c rest
        | none => none
      else
        match lookupField props k with
        | some c => getPath c rest
        | none => none
    | _ => none

/-- The proper dotted ancestors of a path, as strings. -/
def properPrefixStrings (p : String) : List String :=
  (List.range ((splitOnDot p).length - 1)).map
    (fun i => joinComps ((splitOnDot p).take (i + 1)))

/-- The precondition exactly as claim C1 states it: every proper dotted
ancestor of each row's path occurs as a row typed array or object. -/
def prefixClosed (rows : List MapOption) : Prop :=
  ∀ r ∈ rows, ∀ q ∈ properPrefixStrings r.path,
    ∃ a ∈ rows, a.path = q ∧ (a.type = "array" ∨ a.type = "object")

def typeRecognized (r : MapOption) : Prop :=
  r.type = "array" ∨ r.type = "object" ∨ r.type = "number" ∨ r.type = "boolean" ∨
    r.type = "string" ∨ r.type = "null"

/-- Input discipline under which the reconstruction provably succeeds:
prefix-closure as in the claim, pairwise distinct paths, no empty value on
a number row, only recognized types, and children of an array-typed row
keyed by canonical array indices. -/
def rowsOk (rows : List MapOption) : Prop :=
  rows.Pairwise (fun a b => a.path ≠ b.path) ∧
  prefixClosed rows ∧
  (∀ r ∈ rows, typeRecognized r ∧ (r.type = "number" → r.value ≠ "")) ∧
  (∀ a ∈ rows, a.type = "array" → ∀ r ∈ rows,
    splitOnDot a.path <+: splitOnDot r.path →
    (splitOnDot r.path).length = (splitOnDot a.path).length + 1 →
    isArrayIndexStr ((splitOnDot r.path).getLastD "") = true)

def properPathPrefix (q p : String) : Prop :=
  splitOnDot q <+: splitOnDot p ∧ splitOnDot q ≠ splitOnDot p

/-- No row's path strictly extends r's path. -/
def descendantFree (rows : List MapOption) (r : MapOption) : Prop :=
  ∀ t ∈ rows, ¬ properPathPrefix r.path t.path

/-- The decoded value of a primitive-typed row, as the claim describes it:
a number parses as a float when the value contains a dot and as an integer
otherwise, a boolean is the comparison with "true", a string keeps the
value, null becomes null. -/
def decodePrim (r : MapOption) : JVal :=
  if r.type = "number" then
    (if r.value.data.contains '.' then .jfloat r.value
     else match jsParseInt r.value with
          | some i => .jint i
          | none => .nan)
  else if r.type = "boolean" then .jbool (r.value = "true")
  else if r.type = "string" then .str r.value
  else .jnull

/-- What it means for the result tree to hold row r at its path: a
container row holds a container (exactly the fresh empty one when no row
extends its path), a primitive row holds exactly its decoded value. -/
def holdsRow (rows : List MapOption) (res : JVal) (r : MapOption) : Prop :=
  if r.type = "array" then
    (∃ es ps, getPath res (splitOnDot r.path) = some (.arr es ps)) ∧
    (descendantFree rows r → getPath res (splitOnDot r.path) = some (.arr [] []))
  else if r.type = "object" then
    (∃ fs, getPath res (splitOnDot r.path) = some (.obj fs)) ∧
    (descendantFree rows r → getPath res (splitOnDot r.path) = some (.obj []))
  else
    getPath res (splitOnDot r.path) = some (decodePrim r)

-- sanity checks of the embedding on concrete inputs
example : mapOptions [⟨"w", "a", "number", ""⟩] = some (.obj []) := rfl

example : mapOptions [⟨"w", "a.b", "string", "x"⟩, ⟨"w", "a", "object", ""⟩] =
    some (.obj [("a", .obj [("b", .str "x")])]) := rfl

example : mapOptions [⟨"w", "a", "array", ""⟩, ⟨"w", "a.1", "number", "2.5"⟩] =
    some (.obj [("a", .arr [.undef, .jfloat "2.5"] [])]) := rfl

example : mapOptions [⟨"w", "n", "number", "42"⟩] = some (.obj [("n", .jint 42)]) := rfl

/-
Relational model.  The schema module itself is not part of the excerpt;
the row types below are modelled from the spec's data-model section
("standard relational rows (board, layout, section, item, app, widget,
integration, secret, layout-item) tied together by foreign keys") and
carry exactly the columns the router reads or writes.
-/

/-- Modelled from the spec: the appearance/customization columns of the
board table — the column list is the one updateCustomization writes. -/
structure BoardCustomization where
  allowGuests : Bool
  isLeftSidebarVisible : Bool
  isRightSidebarVisible : Bool
  isPingEnabled : Bool
  appOpacity : Int
  backgroundImageUrl : Option String
  primaryColor : Option String
  secondaryColor : Option String
  customCss : Option String
  pageTitle : Option String
  metaTitle : Option String
  logoImageUrl : Option String
  faviconImageUrl : Option String
  primaryShade : Int
deriving DecidableEq

structure BoardRow where
  id : String
  name : String
  ownerId : String
  custom : BoardCustomization
deriving DecidableEq

structure UserRow where
  id : String
  name : String
deriving DecidableEq

structure LayoutRow where
  id : String
  name : String
  boardId : String
deriving DecidableEq

structure SectionRow where
  id : String
  layoutId : String
  type : String
  name : Option String
  position : Option Int
deriving DecidableEq

structure ItemRow where
  id : String
  type : String
  boardId : String
deriving DecidableEq

structure AppRow where
  id : String
  name : String
  internalUrl : String
  iconUrl : String
deriving DecidableEq

structure AppItemRow where
  appId : String
  itemId : String
deriving DecidableEq

structure WidgetRow where
  id : String
  type : String
  itemId : String
deriving DecidableEq

structure LayoutItemRow where
  id : String
  itemId : String
  sectionId : String
  x : Int
  y : Int
  width : Int
  height : Int
deriving DecidableEq

structure IntegrationRow where
  id : String
  appId : String
  kind : String
deriving DecidableEq

structure SecretRow where
  integrationId : String
  kind : String
  visibility : String
  value : Option String
deriving DecidableEq

structure StatusCodeRow where
  appId : String
  code : Int
deriving DecidableEq

/-- The database state: one list of rows per table, in insertion order
(findFirst returns the first matching row of that order). -/
structure Db where
  users : List UserRow
  boards : List BoardRow
  layouts : List LayoutRow
  sections : List SectionRow
  items : List ItemRow
  apps : List AppRow
  appItems : List AppItemRow
  widgets : List WidgetRow
  widgetOptions : List MapOption
  layoutItems : List LayoutItemRow
  integrations : List IntegrationRow
  secrets : List SecretRow
  statusCodes : List StatusCodeRow
deriving DecidableEq

/- Joined records, the shapes the two findMany queries return. -/

structure ItemJoin where
  row : ItemRow
  layouts : List LayoutItemRow
deriving DecidableEq

structure IntegrationJoin where
  row : IntegrationRow
  secrets : List SecretRow
deriving DecidableEq

structure AppJoin where
  row : AppRow
  integration : Option IntegrationJoin
  statusCodes : List StatusCodeRow
deriving DecidableEq

structure JoinedAppItem where
  ai : AppItemRow
  app : Option AppJoin
  item : Option ItemJoin
deriving DecidableEq

structure JoinedWidget where
  w : WidgetRow
  options : List MapOption
  item : Option ItemJoin
deriving DecidableEq

/-- The item relation with its layout items restricted to the given
section ids, as both findMany queries request it. -/
def joinItem (db : Db) (sectionIds : List String) (itemId : String) : Option ItemJoin :=
  (db.items.find? (fun it => it.id == itemId)).map
    (fun it => ⟨it, db.layoutItems.filter
      (fun li => li.itemId == it.id && sectionIds.contains li.sectionId)⟩)

/-- The integration relation of an app, with its secrets. -/
def joinIntegration (db : Db) (a : AppRow) : Option IntegrationJoin :=
  (db.integrations.find? (fun ig => ig.appId == a.id)).map
    (fun ig => ⟨ig, db.secrets.filter (fun s => s.integrationId == ig.id)⟩)

/-- The app relation of an appItems row, with integration and status
codes. -/
def joinApp (db : Db) (appId : String) : Option AppJoin :=
  (db.apps.find? (fun a => a.id == appId)).map
    (fun a => ⟨a, joinIntegration db a, db.statusCodes.filter (fun sc => sc.appId == a.id)⟩)

def joinAppRow (db : Db) (sectionIds : List String) (ai : AppItemRow) : JoinedAppItem :=
  ⟨ai, joinApp db ai.appId, joinItem db sectionIds ai.itemId⟩

/-- getAppsForSectionsAsync: every appItems row (the query has no
top-level where), joined with its app (plus integration with secrets, and
status codes) and its item (with restricted layout items). -/
def getAppsForSections (db : Db) (sectionIds : List String) : List JoinedAppItem :=
  if sectionIds.isEmpty then [] else db.appItems.map (joinAppRow db sectionIds)

def joinWidgetRow (db : Db) (sectionIds : List String) (w : WidgetRow) : JoinedWidget :=
  ⟨w, db.widgetOptions.filter (fun o => o.widgetId == w.id), joinItem db sectionIds w.itemId⟩

/-- getWidgetsForSectionsAsync: every widget row with its options and its
item (with restricted layout items). -/
def getWidgetsForSections (db : Db) (sectionIds : List String) : List JoinedWidget :=
  if sectionIds.isEmpty then [] else db.widgets.map (joinWidgetRow db sectionIds)

/- Output shapes of the byName query. -/

structure SecretOut where
  kind : String
  visibility : String
  value : Option String
  isDefined : Bool
deriving DecidableEq

/-- mapSecret: drops the integrationId, computes isDefined from the
stored value, and for a private secret replaces the value by null. -/
def mapSecret (s : SecretRow) : SecretOut :=
  let isDef := s.value != none && s.value != some ""
  if s.visibility = "private" then ⟨s.kind, "private", none, isDef⟩
  else ⟨s.kind, "public", s.value, isDef⟩

structure IntegrationOut where
  id : String
  appId : String
  kind : String
  secrets : List SecretOut
deriving DecidableEq

structure AppOut where
  id : String
  x : Int
  y : Int
  width : Int
  height : Int
  name : String
  internalUrl : String
  iconUrl : String
  integration : Option IntegrationOut
  statusCodes : List Int
deriving DecidableEq

structure WidgetOut where
  id : String
  x : Int
  y : Int
  width : Int
  height : Int
  sort : String
  options : JVal

inductive ItemOut where
  | app : AppOut → ItemOut
  | widget : WidgetOut → ItemOut

inductive SectionPosOut where
  | num : Option Int → SectionPosOut
  | left : SectionPosOut
  | right : SectionPosOut
deriving DecidableEq

structure SectionOut where
  id : String
  type : String
  name : Option String
  position : SectionPosOut
  items : List ItemOut

inductive ApiError where
  | notFound : String → ApiError
  | runtime : ApiError
deriving DecidableEq

/-- mapApp; error models the TypeError thrown when the item relation is
missing, the restricted layout list is empty (the at(0) assertion) or the
app relation is missing (the app non-null assertion). -/
def mapAppE (x : JoinedAppItem) : Except ApiError ItemOut :=
  match x.item with
  | none => .error .runtime
  | some itj =>
    match itj.layouts.head? with
    | none => .error .runtime
    | some li =>
      match x.app with
      | none => .error .runtime
      | some aj =>
        .ok (.app ⟨li.itemId, li.x, li.y, li.width, li.height,
          aj.row.name, aj.row.internalUrl, aj.row.iconUrl,
          aj.integration.map (fun igj =>
            ⟨igj.row.id, igj.row.appId, igj.row.kind, igj.secrets.map mapSecret⟩),
          aj.statusCodes.map (fun sc => sc.code)⟩)

/-- mapWidget; options go through mapOptions, whose TypeError propagates. -/
def mapWidgetE (x : JoinedWidget) : Except ApiError ItemOut :=
  match x.item with
  | none => .error .runtime
  | some itj =>
    match itj.layouts.head? with
    | none => .error .runtime
    | some li =>
      match mapOptions x.options with
      | none => .error .runtime
      | some opts =>
        .ok (.widget ⟨li.itemId, li.x, li.y, li.width, li.height, x.w.type, opts⟩)

/-- mapSection: empty keeps its position, hidden gets a null position,
category keeps name and position, anything else (the sidebars) maps
position 0 to left and everything else to right. -/
def mapSection (s : SectionRow) (items : List ItemOut) : SectionOut :=
  if s.type = "empty" then ⟨s.id, s.type, none, .num s.position, items⟩
  else if s.type = "hidden" then ⟨s.id, s.type, none, .num none, items⟩
  else if s.type = "category" then ⟨s.id, s.type, s.name, .num s.position, items⟩
  else ⟨s.id, s.type, none, if s.position = some 0 then .left else .right, items⟩

/-- Array.prototype.map with a function that can throw: elements are
mapped left to right, the first thrown error propagates. -/
def mapE {α β : Type} (f : α → Except ApiError β) : List α → Except ApiError (List β)
  | [] => .ok []
  | x :: xs =>
    match f x with
    | .error e => .error e
    | .ok y =>
      match mapE f xs with
      | .error e => .error e
      | .ok ys => .ok (y :: ys)

/-- Array.prototype.filter with a predicate that can throw (reading
x.item.layouts throws when the item relation is missing). -/
def filterE {α : Type} (p : α → Except ApiError Bool) : List α → Except ApiError (List α)
  | [] => .ok []
  | x :: xs =>
    match p x with
    | .error e => .error e
    | .ok b =>
      match filterE p xs with
      | .error e => .error e
      | .ok r => .ok (if b then x :: r else r)

def appMatches (sid : String) (x : JoinedAppItem) : Except ApiError Bool :=
  match x.item with
  | none => .error .runtime
  | some itj => .ok (itj.layouts.any (fun li => li.sectionId == sid))

def widgetMatches (sid : String) (x : JoinedWidget) : Except ApiError Bool :=
  match x.item with
  | none => .error .runtime
  | some itj => .ok (itj.layouts.any (fun li => li.sectionId == sid))

/-- One prepared section: the apps filtered to this section, then the
widgets filtered to this section, mapped and concatenated apps-first. -/
def prepareSection (appRows : List JoinedAppItem) (widgetRows : List JoinedWidget)
    (s : SectionRow) : Except ApiError SectionOut :=
  match filterE (appMatches s.id) appRows with
  | .error e => .error e
  | .ok fa =>
    match filterE (widgetMatches s.id) widgetRows with
    | .error e => .error e
    | .ok fw =>
      match mapE mapAppE fa with
      | .error e => .error e
      | .ok ao =>
        match mapE mapWidgetE fw with
        | .error e => .error e
        | .ok wo => .ok (mapSection s (ao ++ wo))

/-- Relational order on nullable positions as the SQL orderBy sorts them
(nulls first, then ascending). -/
def posLeB (a b : Option Int) : Bool :=
  match a, b with
  | none, _ => true
  | some _, none => false
  | some x, some y => x ≤ y

def sectionPosLe (s1 s2 : SectionRow) : Prop := posLeB s1.position s2.position = true

instance : DecidableRel sectionPosLe :=
  fun a b => inferInstanceAs (Decidable (_ = true))

/-- The sections relation of one layout, ordered by position. -/
def sectionsOfLayout (db : Db) (layoutId : String) : List SectionRow :=
  List.insertionSort sectionPosLe (db.sections.filter (fun s => s.layoutId == layoutId))

structure OwnerOut where
  id : String
  name : String
deriving DecidableEq

structure ByNameRes where
  id : String
  name : String
  custom : BoardCustomization
  owner : Option OwnerOut
  sections : List SectionOut

def findBoard (db : Db) (boardName : String) : Option BoardRow :=
  db.boards.find? (fun b => b.name == boardName)

/-- The layouts relation of the board restricted to the requested name,
as getFullBoardWithLayoutSectionsAsync requests it. -/
def layoutsOf (db : Db) (b : BoardRow) (layoutName : String) : List LayoutRow :=
  db.layouts.filter (fun l => l.boardId == b.id && l.name == layoutName)

/-- The byName query; the caller defaults the layout name to "default". -/
def byName (db : Db) (boardName layoutName : String) : Except ApiError ByNameRes :=
  match findBoard db boardName with
  | none => .error (.notFound "Board not found")
  | some b =>
    match (layoutsOf db b layoutName).head? with
    | none => .error (.notFound "Layout not found")
    | some lay =>
      let secs := sectionsOfLayout db lay.id
      let sectionIds := secs.map (fun s => s.id)
      let appRows := getAppsForSections db sectionIds
      let widgetRows := getWidgetsForSections db sectionIds
      match mapE (prepareSection appRows widgetRows) secs with
      | .error e => .error e
      | .ok outs =>
        .ok ⟨b.id, b.name, b.custom,
          (db.users.find? (fun u => u.id == b.ownerId)).map (fun u => ⟨u.id, u.name⟩),
          outs⟩

def byNameSimple (db : Db) (boardName : String) : Except ApiError BoardRow :=
  match findBoard db boardName with
  | none => .error (.notFound "Board not found")
  | some b => .ok b

structure CustomizationInput where
  allowGuests : Bool
  leftSidebarEnabled : Bool
  rightSidebarEnabled : Bool
  pingsEnabled : Bool
  opacity : Int
  backgroundSrc : Option String
  primaryColor : Option String
  secondaryColor : Option String
  customCss : Option String
  pageTitle : Option String
  metaTitle : Option String
  logoSrc : Option String
  faviconSrc : Option String
  shade : Int
deriving DecidableEq

/-- The column assignments of the update statement, input field by input
field as the source writes them. -/
def applyCustomization (c : CustomizationInput) : BoardCustomization :=
  ⟨c.allowGuests, c.leftSidebarEnabled, c.rightSidebarEnabled, c.pingsEnabled,
   c.opacity, c.backgroundSrc, c.primaryColor, c.secondaryColor, c.customCss,
   c.pageTitle, c.metaTitle, c.logoSrc, c.faviconSrc, c.shade⟩

/-- updateCustomization: find the board by name, update the customization
columns of every row whose id matches, and return the row as read before
the update. -/
def updateCustomization (db : Db) (boardName : String) (c : CustomizationInput) :
    Except ApiError (BoardRow × Db) :=
  match findBoard db boardName with
  | none => .error (.notFound "Board not found")
  | some b =>
    let newBoards := db.boards.map
      (fun r => if r.id == b.id then { r with custom := applyCustomization c } else r)
    .ok (b, { db with boards := newBoards })

/-- randomUUID, modelled as a fresh-name supply. -/
def freshId (n : Nat) : String := "uuid-" ++ toString n

/-- Modelled from the spec: the database defaults of the board columns the
exampleBoard insert leaves unset (the schema module is not part of the
excerpt). -/
def defaultCustomization : BoardCustomization :=
  ⟨false, false, false, false, 0, none, none, none, none, none, none, none, none, 0⟩

/-- addWidget: one item row of type widget, one widget row, one layout
item in the given section. -/
def addWidget (db : Db) (ctr : Nat) (boardId sectionId ty : String)
    (width height x y : Int) : Db × Nat :=
  let itemId := freshId ctr
  let widgetId := freshId (ctr + 1)
  let layoutItemId := freshId (ctr + 2)
  ({ db with
      items := db.items ++ [⟨itemId, "widget", boardId⟩],
      widgets := db.widgets ++ [⟨widgetId, ty, itemId⟩],
      layoutItems := db.layoutItems ++
        [⟨layoutItemId, itemId, sectionId, x, y, width, height⟩] },
   ctr + 3)

/-- addApp: one item row of type app, one app row, one appItems link, one
layout item in the given section. -/
def addApp (db : Db) (ctr : Nat) (boardId sectionId name internalUrl iconUrl : String)
    (width height x y : Int) : Db × Nat :=
  let itemId := freshId ctr
  let appId := freshId (ctr + 1)
  let layoutItemId := freshId (ctr + 2)
  ({ db with
      items := db.items ++ [⟨itemId, "app", boardId⟩],
      apps := db.apps ++ [⟨appId, name, internalUrl, iconUrl⟩],
      appItems := db.appItems ++ [⟨appId, itemId⟩],
      layoutItems := db.layoutItems ++
        [⟨layoutItemId, itemId, sectionId, x, y, width, height⟩] },
   ctr + 3)

/-- exampleBoard: one board owned by the session user, one default layout,
one empty section at position 0, four apps and four widgets in it. -/
def exampleBoard (db : Db) (boardName userId : String) : Db :=
  let boardId := freshId 0
  let layoutId := freshId 1
  let sectionId := freshId 2
  let db1 : Db :=
    { db with boards := db.boards ++ [⟨boardId, boardName, userId, defaultCustomization⟩] }
  let db2 : Db := { db1 with layouts := db1.layouts ++ [⟨layoutId, "default", boardId⟩] }
  let db3 : Db :=
    { db2 with sections := db2.sections ++ [⟨sectionId, layoutId, "empty", none, some 0⟩] }
  let s4 := addApp db3 3 boardId sectionId "Contribute" "https://github.com/ajnart/homarr"
    "https://cdn.jsdelivr.net/gh/walkxcode/dashboard-icons@master/png/github.png" 2 1 2 0
  let s5 := addApp s4.1 s4.2 boardId sectionId "Discord" "https://discord.com/invite/aCsmEV5RgA"
    "https://cdn.jsdelivr.net/gh/walkxcode/dashboard-icons@master/png/discord.png" 2 1 4 0
  let s6 := addApp s5.1 s5.2 boardId sectionId "Donate" "https://ko-fi.com/ajnart"
    "https://cdn.jsdelivr.net/gh/walkxcode/dashboard-icons@master/png/ko-fi.png" 2 1 6 0
  let s7 := addApp s6.1 s6.2 boardId sectionId "Documentation" "https://homarr.dev"
    "/imgs/logo/logo.png" 2 2 6 1
  let s8 := addWidget s7.1 s7.2 boardId sectionId "weather" 2 1 0 0
  let s9 := addWidget s8.1 s8.2 boardId sectionId "date" 2 1 8 0
  let s10 := addWidget s9.1 s9.2 boardId sectionId "date" 2 1 8 1
  let s11 := addWidget s10.1 s10.2 boardId sectionId "notebook" 6 3 0 1
  s11.1

/- The config-file import endpoint. -/

structure Wrapper where
  id : String
  position : Int
deriving DecidableEq

/-- Modelled from the spec: the app entry generateDefaultApp (from
~/tools/shared/app, not part of the excerpt) produces; only the fields the
router reads or overwrites are modelled, with the external url standing
for the behaviour.externalUrl sub-field. -/
structure ConfigApp where
  name : String
  url : String
  externalUrl : String
  wrapperId : String
deriving DecidableEq

def generateDefaultApp (wrapperId : String) : ConfigApp :=
  ⟨"Your app", "https://homarr.dev", "https://homarr.dev", wrapperId⟩

/-- Modelled from the spec: a board config file; wrappers and apps are the
fields the router touches, rest stands for every other field, copied
verbatim by the object spread. -/
structure Config where
  wrappers : List Wrapper
  apps : List ConfigApp
  rest : String
deriving DecidableEq

structure ContainerInput where
  name : String
  port : Option Nat
deriving DecidableEq

def wrapperPosLe (a b : Wrapper) : Prop := a.position ≤ b.position

instance : DecidableRel wrapperPosLe :=
  fun a b => inferInstanceAs (Decidable (a.position ≤ b.position))

/-- The address a container maps to; a port of 0 is falsy in JavaScript
and therefore treated like a missing port. -/
def containerAddress (c : ContainerInput) : String :=
  match c.port with
  | some p => if p = 0 then "http://localhost" else "http://localhost:" ++ toString p
  | none => "http://localhost"

def containerApp (w : Wrapper) (c : ContainerInput) : ConfigApp :=
  let d := generateDefaultApp w.id
  { d with name := c.name, url := containerAddress c, externalUrl := containerAddress c }

/-- The config directory: file name (without .json) to parsed config. -/
abbrev ConfigFs : Type := List (String × Config)

def lookupConfig (fs : ConfigFs) (name : String) : Option Config :=
  (fs.find? (fun e => e.fst == name)).map (fun e => e.snd)

def writeConfig (fs : ConfigFs) (name : String) (c : Config) : ConfigFs :=
  fs.map (fun e => if e.fst == name then (e.fst, c) else e)

/-- The map callback: generateDefaultApp(lowestWrapper.id) throws when
there is no wrapper at all (lowestWrapper is undefined), otherwise the
container's name and address overwrite the default entry. -/
def containerToApp (sortedWrappers : List Wrapper) (c : ContainerInput) :
    Except ApiError ConfigApp :=
  match sortedWrappers.head? with
  | none => .error .runtime
  | some w => .ok (containerApp w c)

/-- addAppsForContainers: not-found when the config file is missing;
otherwise the wrappers are sorted by position in place (the JavaScript
sort mutates the array, so the written config carries the sorted list)
and one app per container is appended. -/
def addAppsForContainers (fs : ConfigFs) (boardName : String)
    (containers : List ContainerInput) : Except ApiError ConfigFs :=
  match lookupConfig fs boardName with
  | none => .error (.notFound "Board not found")
  | some config =>
    let sortedWrappers := List.insertionSort wrapperPosLe config.wrappers
    match mapE (containerToApp sortedWrappers) containers with
    | .error e => .error e
    | .ok newApps =>
      .ok (writeConfig fs boardName
        { wrappers := sortedWrappers, apps := config.apps ++ newApps, rest := config.rest })

/- Helper lemmas about the effectful list combinators. -/

theorem mapE_pure_eq {α β : Type} (g : α → β) (l : List α) :
    mapE (fun x => Except.ok (g x)) l = .ok (l.map g) := by
  induction l with
  | nil => rfl
  | cons x xs ih => simp [mapE, ih]

theorem mapE_ok_forall2 {α β : Type} {f : α → Except ApiError β} {l : List α}
    {out : List β} (h : mapE f l = .ok out) :
    List.Forall₂ (fun x y => f x = .ok y) l out := by
  induction l generalizing out with
  | nil =>
    simp [mapE] at h
    subst h
    exact .nil
  | cons x xs ih =>
    cases hfx : f x with
    | error e => simp [mapE, hfx] at h
    | ok y =>
      cases hrest : mapE f xs with
      | error e => simp [mapE, hfx, hrest] at h
      | ok ys =>
        simp [mapE, hfx, hrest] at h
        subst h
        exact .cons hfx (ih hrest)

theorem mapE_error {α β : Type} {f : α → Except ApiError β} {l : List α}
    {e : ApiError} (h : mapE f l = .error e) : ∃ x ∈ l, f x = .error e := by
  induction l with
  | nil => simp [mapE] at h
  | cons x xs ih =>
    cases hfx : f x with
    | error e2 =>
      simp [mapE, hfx] at h
      subst h
      exact ⟨x, List.mem_cons_self x xs, hfx⟩
    | ok y =>
      cases hrest : mapE f xs with
      | error e2 =>
        simp [mapE, hfx, hrest] at h
        subst h
        obtain ⟨z, hz, hze⟩ := ih hrest
        exact ⟨z, List.mem_cons_of_mem x hz, hze⟩
      | ok ys => simp [mapE, hfx, hrest] at h

/-- The pure filter a successful filterE run computes. -/
def passes {α : Type} (p : α → Except ApiError Bool) (x : α) : Bool :=
  match p x with
  | .ok true => true
  | _ => false

theorem filterE_ok {α : Type} {p : α → Except ApiError Bool} {l out : List α}
    (h : filterE p l = .ok out) :
    out = l.filter (passes p) ∧ ∀ x ∈ l, ∃ b, p x = .ok b := by
  induction l generalizing out with
  | nil =>
    simp [filterE] at h
    subst h
    simp
  | cons x xs ih =>
    cases hpx : p x with
    | error e => simp [filterE, hpx] at h
    | ok b =>
      cases hrest : filterE p xs with
      | error e => simp [filterE, hpx, hrest] at h
      | ok r =>
        simp [filterE, hpx, hrest] at h
        obtain ⟨hr, hall⟩ := ih hrest
        subst h
        constructor
        · cases b with
          | true => simp [List.filter, passes, hpx, hr]
          | false => simp [List.filter, passes, hpx, hr]
        · intro z hz
          rcases List.mem_cons.mp hz with hz | hz
          · exact ⟨b, hz ▸ hpx⟩
          · exact hall z hz

theorem filterE_error {α : Type} {p : α → Except ApiError Bool} {l : List α}
    {e : ApiError} (h : filterE p l = .error e) : ∃ x ∈ l, p x = .error e := by
  induction l with
  | nil => simp [filterE] at h
  | cons x xs ih =>
    cases hpx : p x with
    | error e2 =>
      simp [filterE, hpx] at h
      subst h
      exact ⟨x, List.mem_cons_self x xs, hpx⟩
    | ok b =>
      cases hrest : filterE p xs with
      | error e2 =>
        simp [filterE, hpx, hrest] at h
        subst h
        obtain ⟨z, hz, hze⟩ := ih hrest
        exact ⟨z, List.mem_cons_of_mem x hz, hze⟩
      | ok r => simp [filterE, hpx, hrest] at h

/- Every error thrown after the two not-found checks is a runtime
TypeError, never another TRPCError. -/

theorem appMatches_error {sid : String} {x : JoinedAppItem} {e : ApiError}
    (h : appMatches sid x = .error e) : e = .runtime := by
  cases hx : x.item with
  | none => simp [appMatches, hx] at h; exact h.symm
  | some itj => simp [appMatches, hx] at h

theorem widgetMatches_error {sid : String} {x : JoinedWidget} {e : ApiError}
    (h : widgetMatches sid x = .error e) : e = .runtime := by
  cases hx : x.item with
  | none => simp [widgetMatches, hx] at h; exact h.symm
  | some itj => simp [widgetMatches, hx] at h

theorem mapAppE_error {x : JoinedAppItem} {e : ApiError}
    (h : mapAppE x = .error e) : e = .runtime := by
  cases hx : x.item with
  | none => simp [mapAppE, hx] at h; exact h.symm
  | some itj =>
    cases hl : itj.layouts.head? with
    | none => simp [mapAppE, hx, hl] at h; exact h.symm
    | some li =>
      cases ha : x.app with
      | none => simp [mapAppE, hx, hl, ha] at h; exact h.symm
      | some aj => simp [mapAppE, hx, hl, ha] at h

theorem mapWidgetE_error {x : JoinedWidget} {e : ApiError}
    (h : mapWidgetE x = .error e) : e = .runtime := by
  cases hx : x.item with
  | none => simp [mapWidgetE, hx] at h; exact h.symm
  | some itj =>
    cases hl : itj.layouts.head? with
    | none => simp [mapWidgetE, hx, hl] at h; exact h.symm
    | some li =>
      cases ho : mapOptions x.options with
      | none => simp [mapWidgetE, hx, hl, ho] at h; exact h.symm
      | some opts => simp [mapWidgetE, hx, hl, ho] at h

theorem prepareSection_error {appRows : List JoinedAppItem}
    {widgetRows : List JoinedWidget} {s : SectionRow} {e : ApiError}
    (h : prepareSection appRows widgetRows s = .error e) : e = .runtime := by
  cases hfa : filterE (appMatches s.id) appRows with
  | error e2 =>
    simp [prepareSection, hfa] at h
    obtain ⟨x, _, hx⟩ := filterE_error hfa
    exact h ▸ appMatches_error hx
  | ok fa =>
    cases hfw : filterE (widgetMatches s.id) widgetRows with
    | error e2 =>
      simp [prepareSection, hfa, hfw] at h
      obtain ⟨x, _, hx⟩ := filterE_error hfw
      exact h ▸ widgetMatches_error hx
    | ok fw =>
      cases hao : mapE mapAppE fa with
      | error e2 =>
        simp [prepareSection, hfa, hfw, hao] at h
        obtain ⟨x, _, hx⟩ := mapE_error hao
        exact h ▸ mapAppE_error hx
      | ok ao =>
        cases hwo : mapE mapWidgetE fw with
        | error e2 =>
          simp [prepareSection, hfa, hfw, hao, hwo] at h
          obtain ⟨x, _, hx⟩ := mapE_error hwo
          exact h ▸ mapWidgetE_error hx
        | ok wo => simp [prepareSection, hfa, hfw, hao, hwo] at h

/- Lemmas about findBoard. -/

theorem findBoard_eq_none_iff (db : Db) (n : String) :
    findBoard db n = none ↔ ∀ b ∈ db.boards, b.name ≠ n := by
  simp [findBoard, List.find?_eq_none]

theorem findBoard_some (db : Db) (n : String) (b : BoardRow)
    (h : findBoard db n = some b) : b.name = n ∧ b ∈ db.boards := by
  refine ⟨?_, List.mem_of_find?_eq_some h⟩
  have := List.find?_some h
  simpa using this

/-- Classification of every byName run: board-level not-found, layout-level
not-found, or (board and layout both found) either a runtime error or a
successful response. -/
theorem byName_classify (db : Db) (n l : String) :
    (findBoard db n = none ∧ byName db n l = .error (.notFound "Board not found")) ∨
    (∃ b, findBoard db n = some b ∧ (layoutsOf db b l).head? = none ∧
      byName db n l = .error (.notFound "Layout not found")) ∨
    (∃ b lay, findBoard db n = some b ∧ (layoutsOf db b l).head? = some lay ∧
      (byName db n l = .error .runtime ∨ ∃ res, byName db n l = .ok res)) := by
  cases hb : findBoard db n with
  | none => exact Or.inl ⟨rfl, by simp [byName, hb]⟩
  | some b =>
    cases hl : (layoutsOf db b l).head? with
    | none => exact Or.inr (Or.inl ⟨b, rfl, hl, by simp [byName, hb, hl]⟩)
    | some lay =>
      refine Or.inr (Or.inr ⟨b, lay, rfl, hl, ?_⟩)
      cases hm : mapE (prepareSection
          (getAppsForSections db ((sectionsOfLayout db lay.id).map (fun s => s.id)))
          (getWidgetsForSections db ((sectionsOfLayout db lay.id).map (fun s => s.id))))
          (sectionsOfLayout db lay.id) with
      | error e =>
        obtain ⟨s, _, hs⟩ := mapE_error hm
        have he := prepareSection_error hs
        subst he
        exact Or.inl (by simp [byName, hb, hl, hm])
      | ok outs =>
        refine Or.inr ⟨⟨b.id, b.name, b.custom,
          (db.users.find? (fun u => u.id == b.ownerId)).map (fun u => ⟨u.id, u.name⟩),
          outs⟩, ?_⟩
        simp [byName, hb, hl, hm]

theorem containerToApp_error {sw : List Wrapper} {c : ContainerInput} {e : ApiError}
    (h : containerToApp sw c = .error e) : e = .runtime := by
  cases hw : sw.head? with
  | none => simp [containerToApp, hw] at h; exact h.symm
  | some w => simp [containerToApp, hw] at h

/-- Claim C4: byName, byNameSimple and updateCustomization throw a
TRPCError NOT_FOUND with message "Board not found" exactly when no board
(no config file, for addAppsForContainers) with the given name exists, and
byName throws NOT_FOUND "Layout not found" exactly when the board exists
but has no layout with the requested name. -/
theorem notFound_errors (db : Db) (fs : ConfigFs) (n l : String)
    (c : CustomizationInput) (containers : List ContainerInput) :
    (byName db n l = .error (.notFound "Board not found") ↔ ∀ b ∈ db.boards, b.name ≠ n) ∧
    (byNameSimple db n = .error (.notFound "Board not found") ↔ ∀ b ∈ db.boards, b.name ≠ n) ∧
    (updateCustomization db n c = .error (.notFound "Board not found") ↔
      ∀ b ∈ db.boards, b.name ≠ n) ∧
    (addAppsForContainers fs n containers = .error (.notFound "Board not found") ↔
      lookupConfig fs n = none) ∧
    (∀ b, findBoard db n = some b →
      (byName db n l = .error (.notFound "Layout not found") ↔
        ∀ lay ∈ db.layouts, ¬(lay.boardId = b.id ∧ lay.name = l))) := by
  have hlayiff : ∀ b : BoardRow, (layoutsOf db b l).head? = none ↔
      ∀ lay ∈ db.layouts, ¬(lay.boardId = b.id ∧ lay.name = l) := by
    intro b
    rw [List.head?_eq_none_iff]
    simp [layoutsOf, List.filter_eq_nil_iff]
  refine ⟨?_, ?_, ?_, ?_, ?_⟩
  · rw [← findBoard_eq_none_iff]
    rcases byName_classify db n l with ⟨hnone, hres⟩ | ⟨b, hb, hl, hres⟩ |
      ⟨b, lay, hb, hl, hres⟩
    · simp [hres, hnone]
    · rw [hres, hb]
      simp
    · rw [hb]
      rcases hres with hres | ⟨res, hres⟩ <;> simp [hres]
  · rw [← findBoard_eq_none_iff]
    cases hb : findBoard db n with
    | none => simp [byNameSimple, hb]
    | some b => simp [byNameSimple, hb]
  · rw [← findBoard_eq_none_iff]
    cases hb : findBoard db n with
    | none => simp [updateCustomization, hb]
    | some b => simp [updateCustomization, hb]
  · cases hc : lookupConfig fs n with
    | none => simp [addAppsForContainers, hc]
    | some cfg =>
      simp only [addAppsForContainers, hc]
      cases hm : mapE (containerToApp (List.insertionSort wrapperPosLe cfg.wrappers))
          containers with
      | error e =>
        obtain ⟨x, _, hx⟩ := mapE_error hm
        have he := containerToApp_error hx
        subst he
        simp
      | ok newApps => simp
  · intro b hb
    rw [← hlayiff b]
    rcases byName_classify db n l with ⟨hnone, hres⟩ | ⟨b2, hb2, hl, hres⟩ |
      ⟨b2, lay, hb2, hl, hres⟩
    · rw [hnone] at hb
      cases hb
    · rw [hb] at hb2
      cases hb2
      rw [hres, hl]
      simp
    · rw [hb] at hb2
      cases hb2
      rw [hl]
      rcases hres with hres | ⟨res, hres⟩ <;> simp [hres]

def exCust : CustomizationInput :=
  ⟨true, false, true, false, 50, some "bg", some "red", none, none,
   some "pt", none, none, none, 6⟩

def exBoardA : BoardRow := ⟨"b1", "alpha", "u1", defaultCustomization⟩

def exBoardB : BoardRow := ⟨"b2", "beta", "u1", defaultCustomization⟩

def exDbU : Db := ⟨[], [exBoardA, exBoardB], [], [], [], [], [], [], [], [], [], [], []⟩

theorem notFound_errors_witness :
    byName exDbU "nope" "default" = .error (.notFound "Board not found") :=
  (notFound_errors exDbU [] "nope" "default" exCust []).1.mpr (by decide)

/-- Claim C6: updateCustomization touches no table but boards, leaves every
board row with a different id untouched, and on the matching row changes
only the customization columns (id, name, ownerId survive inside the
record update). -/
theorem updateCustomization_frame (db : Db) (n : String) (c : CustomizationInput)
    (b : BoardRow) (db2 : Db) (h : updateCustomization db n c = .ok (b, db2)) :
    db2.users = db.users ∧ db2.layouts = db.layouts ∧ db2.sections = db.sections ∧
    db2.items = db.items ∧ db2.apps = db.apps ∧ db2.appItems = db.appItems ∧
    db2.widgets = db.widgets ∧ db2.widgetOptions = db.widgetOptions ∧
    db2.layoutItems = db.layoutItems ∧ db2.integrations = db.integrations ∧
    db2.secrets = db.secrets ∧ db2.statusCodes = db.statusCodes ∧
    db2.boards.length = db.boards.length ∧
    (∀ i, ∀ hi : i < db.boards.length,
      (db.boards[i].id ≠ b.id → db2.boards[i]? = some db.boards[i]) ∧
      (db.boards[i].id = b.id →
        db2.boards[i]? = some { db.boards[i] with custom := applyCustomization c })) := by
  cases hb : findBoard db n with
  | none => simp [updateCustomization, hb] at h
  | some b0 =>
    simp only [updateCustomization, hb, Except.ok.injEq, Prod.mk.injEq] at h
    obtain ⟨hb0, hdb2⟩ := h
    subst hb0
    subst hdb2
    refine ⟨rfl, rfl, rfl, rfl, rfl, rfl, rfl, rfl, rfl, rfl, rfl, rfl, by simp, ?_⟩
    intro i hi
    constructor
    · intro hne
      simp [List.getElem?_map, List.getElem?_eq_getElem hi, hne]
    · intro heq
      simp [List.getElem?_map, List.getElem?_eq_getElem hi, heq]

def exDbU2 : Db :=
  ((updateCustomization exDbU "alpha" exCust).toOption.map Prod.snd).getD exDbU

theorem updateCustomization_frame_witness : exDbU2.users = exDbU.users :=
  (updateCustomization_frame exDbU "alpha" exCust exBoardA exDbU2 rfl).1

/-- Claim C9: updateCustomization returns the board row exactly as found
in the pre-update database state. -/
theorem updateCustomization_returns_preUpdate (db : Db) (n : String)
    (c : CustomizationInput) (b : BoardRow) (db2 : Db)
    (h : updateCustomization db n c = .ok (b, db2)) :
    findBoard db n = some b ∧ b ∈ db.boards := by
  cases hb : findBoard db n with
  | none => simp [updateCustomization, hb] at h
  | some b0 =>
    simp only [updateCustomization, hb, Except.ok.injEq, Prod.mk.injEq] at h
    obtain ⟨hb0, _⟩ := h
    subst hb0
    exact ⟨rfl, (findBoard_some db n _ hb).2⟩

theorem updateCustomization_returns_preUpdate_witness :
    findBoard exDbU "alpha" = some exBoardA ∧ exBoardA ∈ exDbU.boards :=
  updateCustomization_returns_preUpdate exDbU "alpha" exCust exBoardA exDbU2 rfl

instance : IsTotal Wrapper wrapperPosLe where
  total a b := by
    unfold wrapperPosLe
    omega

instance : IsTrans Wrapper wrapperPosLe where
  trans a b c h1 h2 := by
    unfold wrapperPosLe at h1 h2 ⊢
    omega

theorem insertionSort_head_min (l : List Wrapper) (w : Wrapper) (ws : List Wrapper)
    (h : List.insertionSort wrapperPosLe l = w :: ws) :
    w ∈ l ∧ ∀ w2 ∈ l, w.position ≤ w2.position := by
  have hperm := List.perm_insertionSort wrapperPosLe l
  rw [h] at hperm
  have hsorted := List.sorted_insertionSort wrapperPosLe l
  rw [h] at hsorted
  refine ⟨hperm.subset (List.mem_cons_self w ws), ?_⟩
  intro w2 hw2
  rcases List.mem_cons.mp (hperm.mem_iff.mpr hw2) with rfl | hin
  · exact le_refl _
  · exact (List.sorted_cons.mp hsorted).1 w2 hin

theorem mapE_containerToApp (sw : List Wrapper) (w : Wrapper) (hw : sw.head? = some w)
    (containers : List ContainerInput) :
    mapE (containerToApp sw) containers = .ok (containers.map (containerApp w)) := by
  have hfun : containerToApp sw = fun c => Except.ok (containerApp w c) := by
    funext c
    simp [containerToApp, hw]
  rw [hfun, mapE_pure_eq]

/-- Claim C7 (amended): when the named config exists and either has at
least one wrapper or receives no containers, the write rewrites only the
apps list (appending exactly one entry per container, in order, named
after the container with url and externalUrl set to the localhost address,
with the port when it is nonzero) and the wrappers list, which the
in-place sort leaves ordered by position; every other config field is
copied verbatim. -/
theorem addAppsForContainers_spec (fs : ConfigFs) (n : String) (cfg : Config)
    (containers : List ContainerInput)
    (hcfg : lookupConfig fs n = some cfg)
    (hne : cfg.wrappers ≠ [] ∨ containers = []) :
    ∃ newApps,
      addAppsForContainers fs n containers = .ok (writeConfig fs n
        { wrappers := List.insertionSort wrapperPosLe cfg.wrappers,
          apps := cfg.apps ++ newApps, rest := cfg.rest }) ∧
      newApps.length = containers.length ∧
      ∀ i, ∀ hi : i < containers.length,
        ∃ a, newApps[i]? = some a ∧ a.name = containers[i].name ∧
          a.url = containerAddress containers[i] ∧
          a.externalUrl = containerAddress containers[i] := by
  cases hsort : List.insertionSort wrapperPosLe cfg.wrappers with
  | nil =>
    have hwe : cfg.wrappers = [] := by
      have hp := List.perm_insertionSort wrapperPosLe cfg.wrappers
      rw [hsort] at hp
      exact hp.symm.eq_nil
    have hcont : containers = [] := by
      rcases hne with h | h
      · exact absurd hwe h
      · exact h
    subst hcont
    refine ⟨[], ?_, rfl, ?_⟩
    · simp [addAppsForContainers, hcfg, hsort, mapE]
    · intro i hi
      simp at hi
  | cons w ws =>
    refine ⟨containers.map (containerApp w), ?_, by simp, ?_⟩
    · have hm := mapE_containerToApp (List.insertionSort wrapperPosLe cfg.wrappers) w
        (by rw [hsort]; rfl) containers
      rw [hsort] at hm
      simp [addAppsForContainers, hcfg, hm, hsort]
    · intro i hi
      refine ⟨containerApp w containers[i], ?_, rfl, rfl, rfl⟩
      simp [List.getElem?_map, List.getElem?_eq_getElem hi]

def c7cfg : Config := ⟨[⟨"w1", 2⟩, ⟨"w2", 1⟩], [⟨"old", "u", "e", "w1"⟩], "misc"⟩

def c7fsOk : ConfigFs := [("b", c7cfg)]

theorem addAppsForContainers_spec_witness :
    ∃ newApps,
      addAppsForContainers c7fsOk "b" [⟨"svc", some 8080⟩] = .ok (writeConfig c7fsOk "b"
        { wrappers := List.insertionSort wrapperPosLe c7cfg.wrappers,
          apps := c7cfg.apps ++ newApps, rest := c7cfg.rest }) ∧
      newApps.length = ([⟨"svc", some 8080⟩] : List ContainerInput).length ∧
      ∀ i, ∀ hi : i < ([⟨"svc", some 8080⟩] : List ContainerInput).length,
        ∃ a, newApps[i]? = some a ∧
          a.name = (([⟨"svc", some 8080⟩] : List ContainerInput)[i]).name ∧
          a.url = containerAddress (([⟨"svc", some 8080⟩] : List ContainerInput)[i]) ∧
          a.externalUrl = containerAddress (([⟨"svc", some 8080⟩] : List ContainerInput)[i]) :=
  addAppsForContainers_spec c7fsOk "b" c7cfg [⟨"svc", some 8080⟩] rfl (Or.inl (by decide))

def c7badCfg : Config := ⟨[], [], "r"⟩

def c7badFs : ConfigFs := [("b", c7badCfg)]

/-- Claim C7 counterexample: the named config exists, one container is
given, yet nothing is written back — the call throws a TypeError because
the config has no wrappers, contradicting the unconditional write the
claim describes. -/
theorem addAppsForContainers_c7_counterexample :
    lookupConfig c7badFs "b" = some c7badCfg ∧
    addAppsForContainers c7badFs "b" [⟨"svc", some 80⟩] = .error .runtime :=
  ⟨rfl, rfl⟩

/-- Claim C10 (amended): with at least one wrapper every created app entry
carries the id of a wrapper of minimal position; with no wrappers the
operation throws — but only when at least one container is given, an empty
container list still writes the config. -/
theorem addAppsForContainers_wrapper (fs : ConfigFs) (n : String) (cfg : Config)
    (containers : List ContainerInput) (hcfg : lookupConfig fs n = some cfg) :
    (cfg.wrappers ≠ [] →
      ∃ w, w ∈ cfg.wrappers ∧ (∀ w2 ∈ cfg.wrappers, w.position ≤ w2.position) ∧
        addAppsForContainers fs n containers = .ok (writeConfig fs n
          { wrappers := List.insertionSort wrapperPosLe cfg.wrappers,
            apps := cfg.apps ++ containers.map (containerApp w), rest := cfg.rest }) ∧
        ∀ a ∈ containers.map (containerApp w), a.wrapperId = w.id) ∧
    (cfg.wrappers = [] → containers ≠ [] →
      addAppsForContainers fs n containers = .error .runtime) ∧
    (cfg.wrappers = [] → containers = [] →
      addAppsForContainers fs n containers =
        .ok (writeConfig fs n { wrappers := [], apps := cfg.apps, rest := cfg.rest })) := by
  refine ⟨?_, ?_, ?_⟩
  · intro hw
    cases hsort : List.insertionSort wrapperPosLe cfg.wrappers with
    | nil =>
      have hp := List.perm_insertionSort wrapperPosLe cfg.wrappers
      rw [hsort] at hp
      exact absurd hp.symm.eq_nil hw
    | cons w ws =>
      obtain ⟨hmem, hmin⟩ := insertionSort_head_min cfg.wrappers w ws hsort
      refine ⟨w, hmem, hmin, ?_, ?_⟩
      · have hm := mapE_containerToApp (List.insertionSort wrapperPosLe cfg.wrappers) w
          (by rw [hsort]; rfl) containers
        rw [hsort] at hm
        simp [addAppsForContainers, hcfg, hm, hsort]
      · intro a ha
        obtain ⟨c2, _, hc2⟩ := List.mem_map.mp ha
        rw [← hc2]
        rfl
  · intro hw hc
    cases containers with
    | nil => exact absurd rfl hc
    | cons c0 cs =>
      have hsort : List.insertionSort wrapperPosLe cfg.wrappers = [] := by
        rw [hw]
        rfl
      simp [addAppsForContainers, hcfg, hsort, mapE, containerToApp]
  · intro hw hc
    subst hc
    have hsort : List.insertionSort wrapperPosLe cfg.wrappers = [] := by
      rw [hw]
      rfl
    simp [addAppsForContainers, hcfg, hsort, mapE]

theorem addAppsForContainers_wrapper_witness :
    ∃ w, w ∈ c7cfg.wrappers ∧ (∀ w2 ∈ c7cfg.wrappers, w.position ≤ w2.position) ∧
      addAppsForContainers c7fsOk "b" [⟨"db", none⟩] = .ok (writeConfig c7fsOk "b"
        { wrappers := List.insertionSort wrapperPosLe c7cfg.wrappers,
          apps := c7cfg.apps ++ ([⟨"db", none⟩] : List ContainerInput).map (containerApp w),
          rest := c7cfg.rest }) ∧
      ∀ a ∈ ([⟨"db", none⟩] : List ContainerInput).map (containerApp w),
        a.wrapperId = w.id :=
  (addAppsForContainers_wrapper c7fsOk "b" c7cfg [⟨"db", none⟩] rfl).1 (by decide)

/-- Claim C10 counterexample: a config with no wrappers and no containers
does not fail — the config is written back. -/
theorem addAppsForContainers_c10_counterexample :
    lookupConfig c7badFs "b" = some c7badCfg ∧ c7badCfg.wrappers = [] ∧
    addAppsForContainers c7badFs "b" [] =
      .ok (writeConfig c7badFs "b" ⟨[], [], "r"⟩) :=
  ⟨rfl, rfl, rfl⟩

/-- Claim C8: exampleBoard bootstraps exactly one example board: one board
row with the given name owned by the session user, one layout named
default for it, one empty section at position 0, four app items
(Contribute, Discord, Donate, Documentation) and four widget items
(weather, date, date, notebook) whose layout items all reference that
single section; no other table is touched. -/
theorem exampleBoard_spec (db : Db) (n uid : String) :
    (exampleBoard db n uid).boards =
      db.boards ++ [⟨freshId 0, n, uid, defaultCustomization⟩] ∧
    (exampleBoard db n uid).layouts = db.layouts ++ [⟨freshId 1, "default", freshId 0⟩] ∧
    (exampleBoard db n uid).sections =
      db.sections ++ [⟨freshId 2, freshId 1, "empty", none, some 0⟩] ∧
    (exampleBoard db n uid).apps.map AppRow.name =
      db.apps.map AppRow.name ++ ["Contribute", "Discord", "Donate", "Documentation"] ∧
    (exampleBoard db n uid).widgets.map WidgetRow.type =
      db.widgets.map WidgetRow.type ++ ["weather", "date", "date", "notebook"] ∧
    (exampleBoard db n uid).items.map ItemRow.type =
      db.items.map ItemRow.type ++ ["app", "app", "app", "app",
        "widget", "widget", "widget", "widget"] ∧
    (exampleBoard db n uid).items.map ItemRow.boardId =
      db.items.map ItemRow.boardId ++ List.replicate 8 (freshId 0) ∧
    (exampleBoard db n uid).appItems.length = db.appItems.length + 4 ∧
    (exampleBoard db n uid).layoutItems.map LayoutItemRow.sectionId =
      db.layoutItems.map LayoutItemRow.sectionId ++ List.replicate 8 (freshId 2) ∧
    (exampleBoard db n uid).users = db.users ∧
    (exampleBoard db n uid).widgetOptions = db.widgetOptions ∧
    (exampleBoard db n uid).integrations = db.integrations ∧
    (exampleBoard db n uid).secrets = db.secrets ∧
    (exampleBoard db n uid).statusCodes = db.statusCodes := by
  refine ⟨?_, ?_, ?_, ?_, ?_, ?_, ?_, ?_, ?_, ?_, ?_, ?_, ?_, ?_⟩ <;>
    simp [exampleBoard, addApp, addWidget, List.replicate]

/- Infrastructure for the byName response claims. -/

theorem forall2_mem_right {α β : Type} {R : α → β → Prop} {l1 : List α} {l2 : List β}
    (h : List.Forall₂ R l1 l2) {y : β} (hy : y ∈ l2) : ∃ x ∈ l1, R x y := by
  induction h with
  | nil => cases hy
  | @cons x y2 xs ys hR hrest ih =>
    rcases List.mem_cons.mp hy with rfl | hy2
    · exact ⟨x, List.mem_cons_self x xs, hR⟩
    · obtain ⟨x2, hx2, hRx⟩ := ih hy2
      exact ⟨x2, List.mem_cons_of_mem x hx2, hRx⟩

theorem forall2_map_eq {α β γ : Type} {R : α → β → Prop} {l1 : List α} {l2 : List β}
    (h : List.Forall₂ R l1 l2) (f : α → γ) (g : β → γ) :
    (∀ x y, x ∈ l1 → R x y → g y = f x) → l2.map g = l1.map f := by
  induction h with
  | nil => intro _; rfl
  | @cons x y xs ys hR hrest ih =>
    intro hfg
    have h1 : g y = f x := hfg x y (List.mem_cons_self x xs) hR
    have h2 : ys.map g = xs.map f :=
      ih (fun a b ha hab => hfg a b (List.mem_cons_of_mem x ha) hab)
    simp [h1, h2]

theorem mapSection_items (s : SectionRow) (its : List ItemOut) :
    (mapSection s its).items = its := by
  unfold mapSection
  split_ifs <;> rfl

theorem mapSection_id (s : SectionRow) (its : List ItemOut) :
    (mapSection s its).id = s.id := by
  unfold mapSection
  split_ifs <;> rfl

theorem prepareSection_ok_inv {appRows : List JoinedAppItem}
    {widgetRows : List JoinedWidget} {s : SectionRow} {out : SectionOut}
    (h : prepareSection appRows widgetRows s = .ok out) :
    ∃ ao wo,
      mapE mapAppE (appRows.filter (passes (appMatches s.id))) = .ok ao ∧
      mapE mapWidgetE (widgetRows.filter (passes (widgetMatches s.id))) = .ok wo ∧
      (∀ x ∈ appRows, ∃ b, appMatches s.id x = .ok b) ∧
      (∀ x ∈ widgetRows, ∃ b, widgetMatches s.id x = .ok b) ∧
      out = mapSection s (ao ++ wo) := by
  cases hfa : filterE (appMatches s.id) appRows with
  | error e => simp [prepareSection, hfa] at h
  | ok fa =>
    cases hfw : filterE (widgetMatches s.id) widgetRows with
    | error e => simp [prepareSection, hfa, hfw] at h
    | ok fw =>
      cases hao : mapE mapAppE fa with
      | error e => simp [prepareSection, hfa, hfw, hao] at h
      | ok ao =>
        cases hwo : mapE mapWidgetE fw with
        | error e => simp [prepareSection, hfa, hfw, hao, hwo] at h
        | ok wo =>
          simp only [prepareSection, hfa, hfw, hao, hwo, Except.ok.injEq] at h
          obtain ⟨hfa2, hall_a⟩ := filterE_ok hfa
          obtain ⟨hfw2, hall_w⟩ := filterE_ok hfw
          rw [hfa2] at hao
          rw [hfw2] at hwo
          exact ⟨ao, wo, hao, hwo, hall_a, hall_w, h.symm⟩

theorem byName_ok_inv {db : Db} {n l : String} {res : ByNameRes}
    (h : byName db n l = .ok res) :
    ∃ b lay outs, findBoard db n = some b ∧ (layoutsOf db b l).head? = some lay ∧
      mapE (prepareSection
        (getAppsForSections db ((sectionsOfLayout db lay.id).map (fun s => s.id)))
        (getWidgetsForSections db ((sectionsOfLayout db lay.id).map (fun s => s.id))))
        (sectionsOfLayout db lay.id) = .ok outs ∧
      res = ⟨b.id, b.name, b.custom,
        (db.users.find? (fun u => u.id == b.ownerId)).map (fun u => ⟨u.id, u.name⟩),
        outs⟩ := by
  cases hb : findBoard db n with
  | none => simp [byName, hb] at h
  | some b =>
    cases hl : (layoutsOf db b l).head? with
    | none => simp [byName, hb, hl] at h
    | some lay =>
      cases hm : mapE (prepareSection
          (getAppsForSections db ((sectionsOfLayout db lay.id).map (fun s => s.id)))
          (getWidgetsForSections db ((sectionsOfLayout db lay.id).map (fun s => s.id))))
          (sectionsOfLayout db lay.id) with
      | error e => simp [byName, hb, hl, hm] at h
      | ok outs =>
        simp only [byName, hb, hl, hm, Except.ok.injEq] at h
        exact ⟨b, lay, outs, rfl, hl, hm, h.symm⟩

theorem mem_getApps {db : Db} {sids : List String} {x : JoinedAppItem}
    (hx : x ∈ getAppsForSections db sids) :
    x.ai ∈ db.appItems ∧ x = joinAppRow db sids x.ai := by
  unfold getAppsForSections at hx
  split at hx
  · cases hx
  · obtain ⟨ai, hai, rfl⟩ := List.mem_map.mp hx
    exact ⟨hai, rfl⟩

theorem mem_getWidgets {db : Db} {sids : List String} {x : JoinedWidget}
    (hx : x ∈ getWidgetsForSections db sids) :
    x.w ∈ db.widgets ∧ x = joinWidgetRow db sids x.w := by
  unfold getWidgetsForSections at hx
  split at hx
  · cases hx
  · obtain ⟨w, hw, rfl⟩ := List.mem_map.mp hx
    exact ⟨hw, rfl⟩

theorem joinItem_inv {db : Db} {sids : List String} {itemId : String} {itj : ItemJoin}
    (hj : joinItem db sids itemId = some itj) :
    itj.row.id = itemId ∧
    itj.layouts = db.layoutItems.filter
      (fun li => li.itemId == itj.row.id && sids.contains li.sectionId) := by
  unfold joinItem at hj
  cases hf : db.items.find? (fun it => it.id == itemId) with
  | none => rw [hf] at hj; cases hj
  | some it =>
    rw [hf] at hj
    simp only [Option.map_some', Option.some.injEq] at hj
    subst hj
    have := List.find?_some hf
    simp only [beq_iff_eq] at this
    exact ⟨this, rfl⟩

theorem joinItem_layout_itemId {db : Db} {sids : List String} {itemId : String}
    {itj : ItemJoin} {li : LayoutItemRow}
    (hj : joinItem db sids itemId = some itj) (hli : li ∈ itj.layouts) :
    li.itemId = itemId ∧ li ∈ db.layoutItems := by
  obtain ⟨hid, hlay⟩ := joinItem_inv hj
  rw [hlay] at hli
  have := List.mem_filter.mp hli
  constructor
  · have hb := this.2
    simp only [Bool.and_eq_true, beq_iff_eq] at hb
    rw [hb.1, hid]
  · exact this.1

theorem mapAppE_ok_inv {x : JoinedAppItem} {y : ItemOut} (h : mapAppE x = .ok y) :
    ∃ itj li aj, x.item = some itj ∧ itj.layouts.head? = some li ∧ x.app = some aj ∧
      y = .app ⟨li.itemId, li.x, li.y, li.width, li.height, aj.row.name,
        aj.row.internalUrl, aj.row.iconUrl,
        aj.integration.map (fun igj =>
          ⟨igj.row.id, igj.row.appId, igj.row.kind, igj.secrets.map mapSecret⟩),
        aj.statusCodes.map (fun sc => sc.code)⟩ := by
  cases hitem : x.item with
  | none => simp [mapAppE, hitem] at h
  | some itj =>
    cases hli : itj.layouts.head? with
    | none => simp [mapAppE, hitem, hli] at h
    | some li =>
      cases happ : x.app with
      | none => simp [mapAppE, hitem, hli, happ] at h
      | some aj =>
        simp only [mapAppE, hitem, hli, happ, Except.ok.injEq] at h
        exact ⟨itj, li, aj, rfl, hli, rfl, h.symm⟩

theorem mapWidgetE_ok_inv {x : JoinedWidget} {y : ItemOut} (h : mapWidgetE x = .ok y) :
    ∃ itj li opts, x.item = some itj ∧ itj.layouts.head? = some li ∧
      mapOptions x.options = some opts ∧
      y = .widget ⟨li.itemId, li.x, li.y, li.width, li.height, x.w.type, opts⟩ := by
  cases hitem : x.item with
  | none => simp [mapWidgetE, hitem] at h
  | some itj =>
    cases hli : itj.layouts.head? with
    | none => simp [mapWidgetE, hitem, hli] at h
    | some li =>
      cases ho : mapOptions x.options with
      | none => simp [mapWidgetE, hitem, hli, ho] at h
      | some opts =>
        simp only [mapWidgetE, hitem, hli, ho, Except.ok.injEq] at h
        exact ⟨itj, li, opts, rfl, hli, rfl, h.symm⟩

/-- The kind and item id of a prepared item, the identity claim C2 tracks. -/
def itemTag : ItemOut → Bool × String
  | .app a => (true, a.id)
  | .widget w2 => (false, w2.id)

theorem mapAppE_tag {db : Db} {sids : List String} {x : JoinedAppItem} {y : ItemOut}
    (hx : x ∈ getAppsForSections db sids) (h : mapAppE x = .ok y) :
    itemTag y = (true, x.ai.itemId) := by
  obtain ⟨itj, li, aj, hitem, hli, happ, hy⟩ := mapAppE_ok_inv h
  subst hy
  obtain ⟨_, hxj⟩ := mem_getApps hx
  have hxitem : x.item = joinItem db sids x.ai.itemId := by
    rw [hxj]
    rfl
  rw [hxitem] at hitem
  have hmem : li ∈ itj.layouts := List.mem_of_mem_head? (by simp [hli])
  have := joinItem_layout_itemId hitem hmem
  simp [itemTag, this.1]

theorem mapWidgetE_tag {db : Db} {sids : List String} {x : JoinedWidget} {y : ItemOut}
    (hx : x ∈ getWidgetsForSections db sids) (h : mapWidgetE x = .ok y) :
    itemTag y = (false, x.w.itemId) := by
  obtain ⟨itj, li, opts, hitem, hli, ho, hy⟩ := mapWidgetE_ok_inv h
  subst hy
  obtain ⟨_, hxj⟩ := mem_getWidgets hx
  have hxitem : x.item = joinItem db sids x.w.itemId := by
    rw [hxj]
    rfl
  rw [hxitem] at hitem
  have hmem : li ∈ itj.layouts := List.mem_of_mem_head? (by simp [hli])
  have := joinItem_layout_itemId hitem hmem
  simp [itemTag, this.1]

theorem passes_ok {α : Type} {p : α → Except ApiError Bool} {x : α} {b : Bool}
    (h : p x = .ok b) : passes p x = b := by
  unfold passes
  rw [h]
  cases b <;> rfl

theorem anyBool_congr {α : Type} {l : List α} {p q : α → Bool}
    (h : ∀ x ∈ l, p x = q x) : l.any p = l.any q := by
  induction l with
  | nil => rfl
  | cons a as ih =>
    rw [List.any_cons, List.any_cons, h a (List.mem_cons_self a as),
      ih (fun x hx => h x (List.mem_cons_of_mem a hx))]

theorem getApps_eq_map (db : Db) {sids : List String} (h : sids ≠ []) :
    getAppsForSections db sids = db.appItems.map (joinAppRow db sids) := by
  unfold getAppsForSections
  have he : sids.isEmpty = false := by
    cases sids with
    | nil => exact absurd rfl h
    | cons a as => rfl
  rw [he]
  rfl

theorem getWidgets_eq_map (db : Db) {sids : List String} (h : sids ≠ []) :
    getWidgetsForSections db sids = db.widgets.map (joinWidgetRow db sids) := by
  unfold getWidgetsForSections
  have he : sids.isEmpty = false := by
    cases sids with
    | nil => exact absurd rfl h
    | cons a as => rfl
  rw [he]
  rfl

theorem appMatches_joinRow {db : Db} {sids : List String} {sid : String}
    {ai : AppItemRow} {itj : ItemJoin} (hj : joinItem db sids ai.itemId = some itj) :
    appMatches sid (joinAppRow db sids ai) =
      .ok (itj.layouts.any (fun li => li.sectionId == sid)) := by
  have hji : (joinAppRow db sids ai).item = some itj := hj
  simp [appMatches, hji]

theorem widgetMatches_joinRow {db : Db} {sids : List String} {sid : String}
    {w : WidgetRow} {itj : ItemJoin} (hj : joinItem db sids w.itemId = some itj) :
    widgetMatches sid (joinWidgetRow db sids w) =
      .ok (itj.layouts.any (fun li => li.sectionId == sid)) := by
  have hji : (joinWidgetRow db sids w).item = some itj := hj
  simp [widgetMatches, hji]

theorem layouts_any_eq {db : Db} {sids : List String} {sid itemId : String}
    {itj : ItemJoin} (hj : ∀ h2 : True, itj.row.id = itemId ∧
      itj.layouts = db.layoutItems.filter
        (fun li => li.itemId == itj.row.id && sids.contains li.sectionId))
    (hsid : sid ∈ sids) :
    itj.layouts.any (fun li => li.sectionId == sid) =
      db.layoutItems.any (fun li => li.itemId == itemId && li.sectionId == sid) := by
  obtain ⟨hid, hlay⟩ := hj trivial
  rw [hlay, List.any_filter]
  apply anyBool_congr
  intro li hli
  cases hsec : li.sectionId == sid with
  | false => simp [hsec]
  | true =>
    have heq : li.sectionId = sid := eq_of_beq hsec
    have hmem : sids.contains li.sectionId = true := by
      rw [heq]
      exact List.elem_eq_true_of_mem hsid
    simp only [hsec, hmem, hid, Bool.and_true]

theorem passes_appMatches_eq {db : Db} {sids : List String} {sid : String}
    {ai : AppItemRow} {itj : ItemJoin}
    (hj : joinItem db sids ai.itemId = some itj) (hsid : sid ∈ sids) :
    passes (appMatches sid) (joinAppRow db sids ai) =
      db.layoutItems.any (fun li => li.itemId == ai.itemId && li.sectionId == sid) := by
  rw [passes_ok (appMatches_joinRow hj)]
  exact layouts_any_eq (fun _ => joinItem_inv hj) hsid

theorem passes_widgetMatches_eq {db : Db} {sids : List String} {sid : String}
    {w : WidgetRow} {itj : ItemJoin}
    (hj : joinItem db sids w.itemId = some itj) (hsid : sid ∈ sids) :
    passes (widgetMatches sid) (joinWidgetRow db sids w) =
      db.layoutItems.any (fun li => li.itemId == w.itemId && li.sectionId == sid) := by
  rw [passes_ok (widgetMatches_joinRow hj)]
  exact layouts_any_eq (fun _ => joinItem_inv hj) hsid

theorem section_items_eq {db : Db} {sids : List String} {s : SectionRow} {out : SectionOut}
    (hne : sids ≠ []) (hsid : s.id ∈ sids)
    (hs : prepareSection (getAppsForSections db sids) (getWidgetsForSections db sids) s
      = .ok out) :
    out.items.map itemTag =
      (db.appItems.filter (fun ai => db.layoutItems.any (fun li =>
          li.itemId == ai.itemId && li.sectionId == s.id))).map
        (fun ai => (true, ai.itemId)) ++
      (db.widgets.filter (fun w2 => db.layoutItems.any (fun li =>
          li.itemId == w2.itemId && li.sectionId == s.id))).map
        (fun w2 => (false, w2.itemId)) := by
  obtain ⟨ao, wo, hao, hwo, hall_a, hall_w, hout⟩ := prepareSection_ok_inv hs
  subst hout
  rw [mapSection_items, List.map_append]
  have h3a : ao.map itemTag =
      ((getAppsForSections db sids).filter (passes (appMatches s.id))).map
        (fun x => ((true : Bool), x.ai.itemId)) :=
    forall2_map_eq (mapE_ok_forall2 hao) (fun x => ((true : Bool), x.ai.itemId)) itemTag
      (fun x y hxmem hR => mapAppE_tag (List.mem_of_mem_filter hxmem) hR)
  have h3w : wo.map itemTag =
      ((getWidgetsForSections db sids).filter (passes (widgetMatches s.id))).map
        (fun x => ((false : Bool), x.w.itemId)) :=
    forall2_map_eq (mapE_ok_forall2 hwo) (fun x => ((false : Bool), x.w.itemId)) itemTag
      (fun x y hxmem hR => mapWidgetE_tag (List.mem_of_mem_filter hxmem) hR)
  have h4a : ((getAppsForSections db sids).filter (passes (appMatches s.id))).map
        (fun x => ((true : Bool), x.ai.itemId)) =
      (db.appItems.filter (fun ai => db.layoutItems.any (fun li =>
          li.itemId == ai.itemId && li.sectionId == s.id))).map
        (fun ai => (true, ai.itemId)) := by
    rw [getApps_eq_map db hne, List.filter_map, List.map_map]
    have hq : db.appItems.filter ((passes (appMatches s.id)) ∘ (joinAppRow db sids)) =
        db.appItems.filter (fun ai => db.layoutItems.any (fun li =>
          li.itemId == ai.itemId && li.sectionId == s.id)) := by
      apply List.filter_congr
      intro ai hai
      have hx : joinAppRow db sids ai ∈ getAppsForSections db sids := by
        rw [getApps_eq_map db hne]
        exact List.mem_map_of_mem _ hai
      obtain ⟨b, hb⟩ := hall_a _ hx
      cases hji : (joinAppRow db sids ai).item with
      | none => simp [appMatches, hji] at hb
      | some itj => exact passes_appMatches_eq hji hsid
    rw [hq]
    rfl
  have h4w : ((getWidgetsForSections db sids).filter (passes (widgetMatches s.id))).map
        (fun x => ((false : Bool), x.w.itemId)) =
      (db.widgets.filter (fun w2 => db.layoutItems.any (fun li =>
          li.itemId == w2.itemId && li.sectionId == s.id))).map
        (fun w2 => (false, w2.itemId)) := by
    rw [getWidgets_eq_map db hne, List.filter_map, List.map_map]
    have hq : db.widgets.filter ((passes (widgetMatches s.id)) ∘ (joinWidgetRow db sids)) =
        db.widgets.filter (fun w2 => db.layoutItems.any (fun li =>
          li.itemId == w2.itemId && li.sectionId == s.id)) := by
      apply List.filter_congr
      intro w2 hw2
      have hx : joinWidgetRow db sids w2 ∈ getWidgetsForSections db sids := by
        rw [getWidgets_eq_map db hne]
        exact List.mem_map_of_mem _ hw2
      obtain ⟨b, hb⟩ := hall_w _ hx
      cases hji : (joinWidgetRow db sids w2).item with
      | none => simp [widgetMatches, hji] at hb
      | some itj => exact passes_widgetMatches_eq hji hsid
    rw [hq]
    rfl
  rw [h3a, h3w, h4a, h4w]

/-- Claim C2: in a successful byName response, each section contains
exactly the app items that have a layout item in that section followed by
exactly the widgets that have a layout item in that section — all apps
before all widgets — identified by kind and item id. -/
theorem byName_section_items (db : Db) (n l : String) (res : ByNameRes)
    (h : byName db n l = .ok res) :
    ∃ b lay, findBoard db n = some b ∧ (layoutsOf db b l).head? = some lay ∧
      res.sections.length = (sectionsOfLayout db lay.id).length ∧
      ∀ i, ∀ hi : i < res.sections.length,
        ∀ hi2 : i < (sectionsOfLayout db lay.id).length,
        (res.sections[i]).items.map itemTag =
          (db.appItems.filter (fun ai => db.layoutItems.any (fun li =>
              li.itemId == ai.itemId &&
              li.sectionId == (sectionsOfLayout db lay.id)[i].id))).map
            (fun ai => (true, ai.itemId)) ++
          (db.widgets.filter (fun w2 => db.layoutItems.any (fun li =>
              li.itemId == w2.itemId &&
              li.sectionId == (sectionsOfLayout db lay.id)[i].id))).map
            (fun w2 => (false, w2.itemId)) := by
  obtain ⟨b, lay, outs, hb, hl, hm, hres⟩ := byName_ok_inv h
  have hsecs : res.sections = outs := by rw [hres]
  have hf2 := mapE_ok_forall2 hm
  have hlen := hf2.length_eq
  refine ⟨b, lay, hb, hl, by rw [hsecs, hlen], ?_⟩
  intro i hi hi2
  have hget := (List.forall₂_iff_get.mp hf2).2 i hi2 (by rw [hsecs] at hi; exact hi)
  simp only [List.get_eq_getElem] at hget
  have hsids_ne : (sectionsOfLayout db lay.id).map (fun s => s.id) ≠ [] := by
    intro hcon
    have : sectionsOfLayout db lay.id = [] := by
      cases hx : sectionsOfLayout db lay.id with
      | nil => rfl
      | cons a as => rw [hx] at hcon; cases hcon
    rw [this] at hi2
    cases hi2
  have hsid : (sectionsOfLayout db lay.id)[i].id ∈
      (sectionsOfLayout db lay.id).map (fun s => s.id) :=
    List.mem_map_of_mem _ (List.getElem_mem hi2)
  have hitems := section_items_eq hsids_ne hsid hget
  have heq : res.sections[i] = outs[i] := List.getElem_of_eq hsecs hi
  rw [heq]
  exact hitems

def exSecretPriv : SecretRow := ⟨"ig1", "apiKey", "private", some "tok"⟩

def exSecretPub : SecretRow := ⟨"ig1", "username", "public", some ""⟩

/-- A concrete database on which byName succeeds: one board, one layout,
two sections, one app (with integration, two secrets, a status code) and
one widget with two option rows. -/
def exDbFull : Db :=
  ⟨[⟨"u1", "owner"⟩],
   [⟨"b1", "main", "u1", defaultCustomization⟩],
   [⟨"l1", "default", "b1"⟩],
   [⟨"s1", "l1", "empty", none, some 0⟩,
    ⟨"s2", "l1", "category", some "cat", some 1⟩],
   [⟨"i1", "app", "b1"⟩, ⟨"i2", "widget", "b1"⟩],
   [⟨"a1", "MyApp", "http://app", "icon.png"⟩],
   [⟨"a1", "i1"⟩],
   [⟨"w1", "clock", "i2"⟩],
   [⟨"w1", "title", "string", "hello"⟩, ⟨"w1", "size", "number", "2.5"⟩],
   [⟨"li1", "i1", "s1", 0, 0, 2, 1⟩, ⟨"li2", "i2", "s2", 1, 0, 2, 1⟩],
   [⟨"ig1", "a1", "sonarr"⟩],
   [exSecretPriv, exSecretPub],
   [⟨"a1", 200⟩]⟩

def exResFull : ByNameRes :=
  ((byName exDbFull "main" "default").toOption).getD ⟨"", "", defaultCustomization, none, []⟩

theorem byName_section_items_witness :
    ∃ b lay, findBoard exDbFull "main" = some b ∧
      (layoutsOf exDbFull b "default").head? = some lay ∧
      exResFull.sections.length = (sectionsOfLayout exDbFull lay.id).length ∧
      ∀ i, ∀ hi : i < exResFull.sections.length,
        ∀ hi2 : i < (sectionsOfLayout exDbFull lay.id).length,
        (exResFull.sections[i]).items.map itemTag =
          (exDbFull.appItems.filter (fun ai => exDbFull.layoutItems.any (fun li =>
              li.itemId == ai.itemId &&
              li.sectionId == (sectionsOfLayout exDbFull lay.id)[i].id))).map
            (fun ai => (true, ai.itemId)) ++
          (exDbFull.widgets.filter (fun w2 => exDbFull.layoutItems.any (fun li =>
              li.itemId == w2.itemId &&
              li.sectionId == (sectionsOfLayout exDbFull lay.id)[i].id))).map
            (fun w2 => (false, w2.itemId)) :=
  byName_section_items exDbFull "main" "default" exResFull rfl

theorem posLeB_total (a b : Option Int) : posLeB a b = true ∨ posLeB b a = true := by
  cases a <;> cases b <;> simp [posLeB] <;> omega

theorem posLeB_trans {a b c : Option Int} (h1 : posLeB a b = true)
    (h2 : posLeB b c = true) : posLeB a c = true := by
  cases a <;> cases b <;> cases c <;> simp [posLeB] at h1 h2 ⊢ <;> omega

instance : IsTotal SectionRow sectionPosLe :=
  ⟨fun a b => posLeB_total a.position b.position⟩

instance : IsTrans SectionRow sectionPosLe :=
  ⟨fun a b c h1 h2 => posLeB_trans h1 h2⟩

/-- Claim C5: the sections of a successful byName response all come from a
single layout — the first stored layout of the found board carrying the
requested name — and are listed in ascending order of the position column
(SQL order: nulls first, then ascending). -/
theorem byName_sections_sorted (db : Db) (n l : String) (res : ByNameRes)
    (h : byName db n l = .ok res) :
    ∃ b lay, ∃ rows : List SectionRow,
      findBoard db n = some b ∧ (layoutsOf db b l).head? = some lay ∧
      lay ∈ db.layouts ∧ lay.boardId = b.id ∧ lay.name = l ∧
      rows.Perm (db.sections.filter (fun s => s.layoutId == lay.id)) ∧
      rows.Sorted sectionPosLe ∧
      res.sections.map (fun so => so.id) = rows.map (fun s => s.id) := by
  obtain ⟨b, lay, outs, hb, hl, hm, hres⟩ := byName_ok_inv h
  have hlay_mem : lay ∈ layoutsOf db b l := List.mem_of_mem_head? (by simp [hl])
  have hlay2 := List.mem_filter.mp hlay_mem
  have hcond := hlay2.2
  simp only [Bool.and_eq_true, beq_iff_eq] at hcond
  refine ⟨b, lay, sectionsOfLayout db lay.id, hb, hl, hlay2.1, hcond.1, hcond.2,
    List.perm_insertionSort sectionPosLe _, List.sorted_insertionSort sectionPosLe _, ?_⟩
  have hsecs : res.sections = outs := by rw [hres]
  rw [hsecs]
  exact forall2_map_eq (mapE_ok_forall2 hm) (fun s => s.id) (fun so => so.id)
    (fun x y hx hR => by
      obtain ⟨ao, wo, _, _, _, _, hout⟩ := prepareSection_ok_inv hR
      rw [hout]
      exact mapSection_id x (ao ++ wo))

theorem byName_sections_sorted_witness :
    ∃ b lay, ∃ rows : List SectionRow, findBoard exDbFull "main" = some b ∧
      (layoutsOf exDbFull b "default").head? = some lay ∧
      lay ∈ exDbFull.layouts ∧ lay.boardId = b.id ∧ lay.name = "default" ∧
      rows.Perm (exDbFull.sections.filter (fun s => s.layoutId == lay.id)) ∧
      rows.Sorted sectionPosLe ∧
      exResFull.sections.map (fun so => so.id) = rows.map (fun s => s.id) :=
  byName_sections_sorted exDbFull "main" "default" exResFull rfl

theorem mapSecret_props (sr : SecretRow) :
    (sr.visibility = "private" → (mapSecret sr).value = none) ∧
    ((mapSecret sr).isDefined = true ↔ sr.value ≠ none ∧ sr.value ≠ some "") := by
  unfold mapSecret
  by_cases hv : sr.visibility = "private" <;> simp [hv]

/-- Claim C3: every secret attached to an app item of a successful byName
response is the mapSecret image of a stored secret row; a private row's
stored value is blanked to null in the output, and the isDefined flag is
true exactly when the stored value is neither null nor the empty string. -/
theorem byName_secrets (db : Db) (n l : String) (res : ByNameRes)
    (h : byName db n l = .ok res) :
    ∀ so ∈ res.sections, ∀ it ∈ so.items, ∀ a ig,
      it = .app a → a.integration = some ig →
      ∀ s2 ∈ ig.secrets, ∃ sr, sr ∈ db.secrets ∧
        s2 = mapSecret sr ∧
        (sr.visibility = "private" → s2.value = none) ∧
        (s2.isDefined = true ↔ sr.value ≠ none ∧ sr.value ≠ some "") := by
  obtain ⟨b, lay, outs, hb, hl, hm, hres⟩ := byName_ok_inv h
  have hsecs : res.sections = outs := by rw [hres]
  intro so hso it hit a ig hit_app hig s2 hs2
  rw [hsecs] at hso
  obtain ⟨s, hs_mem, hps⟩ := forall2_mem_right (mapE_ok_forall2 hm) hso
  obtain ⟨ao, wo, hao, hwo, hall_a, hall_w, hout⟩ := prepareSection_ok_inv hps
  rw [hout, mapSection_items] at hit
  rcases List.mem_append.mp hit with hita | hitw
  · obtain ⟨x, hx_mem, hR⟩ := forall2_mem_right (mapE_ok_forall2 hao) hita
    obtain ⟨itj, li, aj, hitem, hli, happ, hy⟩ := mapAppE_ok_inv hR
    rw [hit_app] at hy
    have ha : a = ⟨li.itemId, li.x, li.y, li.width, li.height, aj.row.name,
        aj.row.internalUrl, aj.row.iconUrl,
        aj.integration.map (fun igj => ⟨igj.row.id, igj.row.appId, igj.row.kind,
          igj.secrets.map mapSecret⟩),
        aj.statusCodes.map (fun sc => sc.code)⟩ := ItemOut.app.inj hy
    rw [ha] at hig
    simp only at hig
    obtain ⟨igj, higj, hig2⟩ := Option.map_eq_some'.mp hig
    rw [← hig2] at hs2
    simp only at hs2
    obtain ⟨sr, hsr_mem, hsr⟩ := List.mem_map.mp hs2
    have hxg : x ∈ getAppsForSections db
        ((sectionsOfLayout db lay.id).map (fun s3 => s3.id)) :=
      List.mem_of_mem_filter hx_mem
    obtain ⟨_, hxj⟩ := mem_getApps hxg
    have hxa : x.app = joinApp db x.ai.appId := by
      rw [hxj]
      rfl
    rw [hxa] at happ
    unfold joinApp at happ
    obtain ⟨arow, harow, haj⟩ := Option.map_eq_some'.mp happ
    rw [← haj] at higj
    simp only at higj
    unfold joinIntegration at higj
    obtain ⟨igrow, higrow, higj2⟩ := Option.map_eq_some'.mp higj
    rw [← higj2] at hsr_mem
    simp only at hsr_mem
    have hsr_db : sr ∈ db.secrets := List.mem_of_mem_filter hsr_mem
    refine ⟨sr, hsr_db, hsr.symm, ?_, ?_⟩
    · intro hpriv
      rw [← hsr]
      exact (mapSecret_props sr).1 hpriv
    · rw [← hsr]
      exact (mapSecret_props sr).2
  · obtain ⟨x, hx_mem, hR⟩ := forall2_mem_right (mapE_ok_forall2 hwo) hitw
    obtain ⟨itj, li, opts, _, _, _, hy⟩ := mapWidgetE_ok_inv hR
    rw [hit_app] at hy
    cases hy

def exIg0 : IntegrationOut :=
  ⟨"ig1", "a1", "sonarr", [mapSecret exSecretPriv, mapSecret exSecretPub]⟩

def exApp0 : AppOut :=
  ⟨"i1", 0, 0, 2, 1, "MyApp", "http://app", "icon.png", some exIg0, [200]⟩

def exSo0 : SectionOut := ⟨"s1", "empty", none, .num (some 0), [.app exApp0]⟩

example : exResFull.sections.head? = some exSo0 := rfl

theorem byName_secrets_witness :
    ∃ sr, sr ∈ exDbFull.secrets ∧ mapSecret exSecretPriv = mapSecret sr ∧
      (sr.visibility = "private" → (mapSecret exSecretPriv).value = none) ∧
      ((mapSecret exSecretPriv).isDefined = true ↔
        sr.value ≠ none ∧ sr.value ≠ some "") :=
  byName_secrets exDbFull "main" "default" exResFull rfl exSo0
    (List.mem_cons_self _ _) (.app exApp0) (List.mem_cons_self _ _) exApp0 exIg0 rfl rfl
    (mapSecret exSecretPriv) (List.mem_cons_self _ _)

def c1rows : List MapOption := [⟨"w", "a", "number", ""⟩]

/-- Claim C1 counterexample: a prefix-closed row list — one number row
whose stored value is the empty string — for which mapOptions returns an
object holding nothing at the row's path: the empty value is falsy, so the
assignment branch for numbers never fires, while the claim requires the
path to hold the value parsed as an integer. -/
theorem mapOptions_c1_counterexample :
    prefixClosed c1rows ∧ mapOptions c1rows = some (.obj []) ∧
    getPath (.obj []) (splitOnDot "a") = none := by
  refine ⟨?_, rfl, rfl⟩
  intro r hr q hq
  simp [c1rows] at hr
  subst hr
  simp [properPrefixStrings, splitOnDot, splitChunks] at hq

/- Part A: the code-point order used to sort option rows. -/

theorem pathLeB_total : ∀ a b : List Char, pathLeB a b = true ∨ pathLeB b a = true := by
  intro a
  induction a with
  | nil => intro b; left; rfl
  | cons c cs ih =>
    intro b
    cases b with
    | nil => right; rfl
    | cons d ds =>
      by_cases h1 : c < d
      · left; simp [pathLeB, h1]
      · by_cases h2 : d < c
        · right; simp [pathLeB, h2]
        · have hcd : c = d := le_antisymm (not_lt.mp h2) (not_lt.mp h1)
          subst hcd
          rcases ih ds with h | h
          · left; simp [pathLeB, lt_irrefl, h]
          · right; simp [pathLeB, lt_irrefl, h]

theorem pathLeB_trans : ∀ a b c : List Char,
    pathLeB a b = true → pathLeB b c = true → pathLeB a c = true := by
  intro a
  induction a with
  | nil => intro b c h1 h2; rfl
  | cons x xs ih =>
    intro b c h1 h2
    cases b with
    | nil => simp [pathLeB] at h1
    | cons y ys =>
      cases c with
      | nil => simp [pathLeB] at h2
      | cons z zs =>
        simp only [pathLeB] at h1 h2 ⊢
        by_cases hxy : x < y
        · by_cases hyz : y < z
          · have hxz : x < z := lt_trans hxy hyz
            simp [hxz]
          · by_cases hzy : z < y
            · simp [hzy] at h2
              exact absurd h2 hyz
            · have : y = z := le_antisymm (not_lt.mp hzy) (not_lt.mp hyz)
              subst this
              simp [hxy]
        · by_cases hyx : y < x
          · simp [hxy, hyx] at h1
          · have : x = y := le_antisymm (not_lt.mp hyx) (not_lt.mp hxy)
            subst this
            by_cases hyz : x < z
            · simp [hyz]
            · by_cases hzy : z < x
              · simp [hzy] at h2
                exact absurd h2 hyz
              · have : x = z := le_antisymm (not_lt.mp hzy) (not_lt.mp hyz)
                subst this
                simp only [lt_irrefl, if_false] at h1 h2 ⊢
                exact ih ys zs h1 h2

theorem pathLeB_antisymm : ∀ a b : List Char,
    pathLeB a b = true → pathLeB b a = true → a = b := by
  intro a
  induction a with
  | nil =>
    intro b h1 h2
    cases b with
    | nil => rfl
    | cons y ys => simp [pathLeB] at h2
  | cons x xs ih =>
    intro b h1 h2
    cases b with
    | nil => simp [pathLeB] at h1
    | cons y ys =>
      simp only [pathLeB] at h1 h2
      by_cases hxy : x < y
      · have : ¬ y < x := lt_asymm hxy
        simp [hxy, this] at h2
      · by_cases hyx : y < x
        · simp [hxy, hyx] at h1
        · have hx : x = y := le_antisymm (not_lt.mp hyx) (not_lt.mp hxy)
          subst hx
          simp only [lt_irrefl, if_false] at h1 h2
          rw [ih ys h1 h2]

theorem pathLeB_self_append : ∀ (l rest : List Char), pathLeB l (l ++ rest) = true := by
  intro l
  induction l with
  | nil => intro rest; rfl
  | cons c cs ih =>
    intro rest
    simp only [List.cons_append, pathLeB, lt_irrefl, if_false]
    exact ih rest

theorem pathLeB_append_false : ∀ (l : List Char) (c : Char) (cs : List Char),
    pathLeB (l ++ c :: cs) l = false := by
  intro l
  induction l with
  | nil => intro c cs; rfl
  | cons d ds ih =>
    intro c cs
    simp only [List.cons_append, pathLeB, lt_irrefl, if_false]
    exact ih c cs

instance : IsTotal MapOption optionLe :=
  ⟨fun a b => pathLeB_total a.path.data b.path.data⟩

instance : IsTrans MapOption optionLe :=
  ⟨fun a b c h1 h2 => pathLeB_trans a.path.data b.path.data c.path.data h1 h2⟩

/- Part B: split and join of dotted paths. -/

theorem data_mk (cs : List Char) : (String.mk cs).data = cs := rfl

theorem splitChunks_ne_nil : ∀ cs : List Char, splitChunks cs ≠ [] := by
  intro cs
  induction cs with
  | nil => simp [splitChunks]
  | cons c rest ih =>
    simp only [splitChunks]
    by_cases h : c = '.'
    · simp [h]
    · simp only [h, if_false]
      cases hs : splitChunks rest with
      | nil => simp
      | cons ch chs => simp

theorem joinChunks_cons_cons (a b : List Char) (t : List (List Char)) :
    joinChunks (a :: b :: t) = a ++ '.' :: joinChunks (b :: t) := rfl

theorem joinChunks_splitChunks : ∀ cs : List Char, joinChunks (splitChunks cs) = cs := by
  intro cs
  induction cs with
  | nil => rfl
  | cons c rest ih =>
    simp only [splitChunks]
    by_cases h : c = '.'
    · subst h
      rw [if_pos rfl]
      cases hs : splitChunks rest with
      | nil => exact absurd hs (splitChunks_ne_nil rest)
      | cons ch chs =>
        rw [joinChunks_cons_cons, ← hs, ih]
        rfl
    · simp only [h, if_false]
      cases hs : splitChunks rest with
      | nil => exact absurd hs (splitChunks_ne_nil rest)
      | cons ch chs =>
        cases chs with
        | nil =>
          have hch : ch = rest := by
            rw [hs] at ih
            simpa [joinChunks] using ih
          simp [joinChunks, hch]
        | cons ch2 chs2 =>
          have h2 : joinChunks ((c :: ch) :: ch2 :: chs2) =
              c :: joinChunks (ch :: ch2 :: chs2) := by
            rw [joinChunks_cons_cons, joinChunks_cons_cons]
            rfl
          rw [h2, ← hs, ih]

theorem joinChunks_append : ∀ (xs ys : List (List Char)), xs ≠ [] → ys ≠ [] →
    joinChunks (xs ++ ys) = joinChunks xs ++ '.' :: joinChunks ys := by
  intro xs
  induction xs with
  | nil => intro ys h hy; exact absurd rfl h
  | cons x xs2 ih =>
    intro ys hx hy
    cases xs2 with
    | nil =>
      cases ys with
      | nil => exact absurd rfl hy
      | cons y ys2 => simp [joinChunks_cons_cons, joinChunks]
    | cons x2 xs3 =>
      have h1 : joinChunks ((x :: x2 :: xs3) ++ ys) =
          x ++ '.' :: joinChunks ((x2 :: xs3) ++ ys) := by
        rw [List.cons_append, List.cons_append, joinChunks_cons_cons]
      rw [h1, ih ys (by simp) hy, joinChunks_cons_cons]
      simp

theorem map_data_map_mk (l : List (List Char)) : (l.map String.mk).map String.data = l := by
  rw [List.map_map]
  have h : (String.data ∘ String.mk) = id := rfl
  rw [h, List.map_id]

theorem map_mk_map_data (l : List String) : (l.map String.data).map String.mk = l := by
  rw [List.map_map]
  have h : (String.mk ∘ String.data) = id := rfl
  rw [h, List.map_id]

theorem joinComps_splitOnDot (s : String) : joinComps (splitOnDot s) = s := by
  unfold joinComps splitOnDot
  rw [map_data_map_mk, joinChunks_splitChunks]

theorem splitOnDot_inj {p q : String} (h : splitOnDot p = splitOnDot q) : p = q := by
  rw [← joinComps_splitOnDot p, ← joinComps_splitOnDot q, h]

theorem splitOnDot_ne_nil (s : String) : splitOnDot s ≠ [] := by
  unfold splitOnDot
  intro h
  exact splitChunks_ne_nil s.data (List.map_eq_nil_iff.mp h)

theorem splitChunks_no_dot : ∀ (cs : List Char), ∀ ch ∈ splitChunks cs, '.' ∉ ch := by
  intro cs
  induction cs with
  | nil =>
    intro ch hch
    simp [splitChunks] at hch
    subst hch
    simp
  | cons c rest ih =>
    intro ch hch
    simp only [splitChunks] at hch
    by_cases h : c = '.'
    · simp [h] at hch
      rcases hch with rfl | hch
      · simp
      · exact ih ch hch
    · simp only [h, if_false] at hch
      cases hs : splitChunks rest with
      | nil => exact absurd hs (splitChunks_ne_nil rest)
      | cons ch0 chs =>
        rw [hs] at hch
        rcases List.mem_cons.mp hch with rfl | hch2
        · intro hmem
          rcases List.mem_cons.mp hmem with heq | hmem2
          · exact h heq.symm
          · exact ih ch0 (by rw [hs]; exact List.mem_cons_self _ _) hmem2
        · exact ih ch (by rw [hs]; exact List.mem_cons_of_mem _ hch2)

theorem splitChunks_no_dot_self : ∀ cs : List Char, '.' ∉ cs → splitChunks cs = [cs] := by
  intro cs
  induction cs with
  | nil => intro h; rfl
  | cons c rest ih =>
    intro h
    have hc : ¬ (c = '.') := fun he => h (he ▸ List.mem_cons_self c rest)
    simp only [splitChunks, hc, if_false]
    rw [ih (fun hm => h (List.mem_cons_of_mem c hm))]

theorem splitChunks_affix : ∀ (a t : List Char), '.' ∉ a →
    splitChunks (a ++ '.' :: t) = a :: splitChunks t := by
  intro a
  induction a with
  | nil => intro t h; simp [splitChunks]
  | cons c as iha =>
    intro t h
    have hc : ¬ (c = '.') := fun he => h (he ▸ List.mem_cons_self c as)
    simp only [List.cons_append, splitChunks, hc, if_false, List.append_eq]
    rw [iha t (fun hm => h (List.mem_cons_of_mem c hm))]

theorem splitChunks_join : ∀ chs : List (List Char), chs ≠ [] →
    (∀ ch ∈ chs, '.' ∉ ch) → splitChunks (joinChunks chs) = chs := by
  intro chs
  induction chs with
  | nil => intro h hnd; exact absurd rfl h
  | cons ch chs2 ih =>
    intro _ hnd
    cases chs2 with
    | nil => exact splitChunks_no_dot_self ch (hnd ch (List.mem_cons_self _ _))
    | cons ch2 chs3 =>
      rw [joinChunks_cons_cons,
        splitChunks_affix ch _ (hnd ch (List.mem_cons_self _ _)),
        ih (by simp) (fun x hx => hnd x (List.mem_cons_of_mem _ hx))]

theorem splitOnDot_no_dot (s : String) : ∀ st ∈ splitOnDot s, '.' ∉ st.data := by
  intro st hst
  obtain ⟨ch, hch, rfl⟩ := List.mem_map.mp hst
  rw [data_mk]
  exact splitChunks_no_dot s.data ch hch

theorem splitOnDot_joinComps (l : List String) (hne : l ≠ [])
    (hnd : ∀ st ∈ l, '.' ∉ st.data) : splitOnDot (joinComps l) = l := by
  unfold splitOnDot joinComps
  rw [data_mk, splitChunks_join (l.map String.data)
    (fun h => hne (List.map_eq_nil_iff.mp h))
    (fun ch hch => by
      obtain ⟨st, hst, rfl⟩ := List.mem_map.mp hch
      exact hnd st hst), map_mk_map_data]

theorem joinComps_data (l : List String) : (joinComps l).data = joinChunks (l.map String.data) := rfl

/-- A proper dotted prefix sorts strictly before its extension:
comparing the extension against the prefix yields false, the other
direction yields true. -/
theorem prefix_path_lt {q p : String}
    (hpre : splitOnDot q <+: splitOnDot p) (hne : splitOnDot q ≠ splitOnDot p) :
    pathLeB p.data q.data = false ∧ pathLeB q.data p.data = true := by
  obtain ⟨t, ht⟩ := hpre
  cases t with
  | nil => rw [List.append_nil] at ht; exact absurd ht hne
  | cons c ts =>
    have h1 : p = joinComps (splitOnDot q ++ c :: ts) := by
      rw [ht, joinComps_splitOnDot]
    have h2 : p.data = joinChunks ((splitOnDot q).map String.data) ++
        '.' :: joinChunks ((c :: ts).map String.data) := by
      rw [h1, joinComps_data, List.map_append]
      exact joinChunks_append _ _
        (fun h => splitOnDot_ne_nil q (List.map_eq_nil_iff.mp h)) (by simp)
    have h3 : joinChunks ((splitOnDot q).map String.data) = q.data := by
      rw [← joinComps_data, joinComps_splitOnDot]
    rw [h3] at h2
    constructor
    · rw [h2]
      exact pathLeB_append_false _ _ _
    · rw [h2]
      exact pathLeB_self_append _ _

/- Part C: property write and canonical index lemmas. -/

theorem lookupField_setField_self : ∀ (fs : List (String × JVal)) (k : String) (v : JVal),
    lookupField (setField fs k v) k = some v := by
  intro fs k v
  induction fs with
  | nil => simp [setField, lookupField]
  | cons kv rest ih =>
    obtain ⟨k2, w⟩ := kv
    by_cases h : k2 = k
    · simp [setField, lookupField, h]
    · simp [setField, lookupField, h, ih]

theorem lookupField_setField_ne : ∀ (fs : List (String × JVal)) (k k2 : String) (v : JVal),
    k2 ≠ k → lookupField (setField fs k v) k2 = lookupField fs k2 := by
  intro fs k k2 v hne
  induction fs with
  | nil =>
    have h : ¬ (k = k2) := fun he => hne he.symm
    simp [setField, lookupField, h]
  | cons kv rest ih =>
    obtain ⟨k3, w⟩ := kv
    by_cases h : k3 = k
    · subst h
      have h2 : ¬ (k3 = k2) := fun he => hne he.symm
      simp [setField, lookupField, h2]
    · by_cases h2 : k3 = k2
      · subst h2
        simp [setField, lookupField, hne, h]
      · simp [setField, lookupField, h, h2, ih]

theorem padSet_get_self (es : List JVal) (n : Nat) (v : JVal) :
    (padSet es n v)[n]? = some v := by
  unfold padSet
  by_cases h : n < es.length
  · simp [h, List.getElem?_set_self h]
  · simp only [h, if_false]
    have hlen : (es ++ List.replicate (n - es.length) JVal.undef).length = n := by
      simp
      omega
    rw [List.getElem?_append_right hlen.le, hlen]
    simp

theorem padSet_get_other (es : List JVal) (n m : Nat) (v : JVal) (hne : m ≠ n)
    (hm : m < es.length) : (padSet es n v)[m]? = es[m]? := by
  unfold padSet
  by_cases h : n < es.length
  · simp [h, List.getElem?_set_ne (fun he => hne he.symm)]
  · simp only [h, if_false]
    rw [List.getElem?_append_left (by simp; omega), List.getElem?_append_left hm]

theorem digit_bounds {c : Char} (h : c.isDigit = true) : 48 ≤ c.toNat ∧ c.toNat ≤ 57 := by
  simp [Char.isDigit] at h
  exact h

theorem digit_not_ws {c : Char} (h : c.isDigit = true) : c.isWhitespace = false := by
  cases hw : c.isWhitespace
  · rfl
  · simp [Char.isWhitespace] at hw
    rcases hw with ((rfl | rfl) | rfl) | rfl <;> exact absurd h (by decide)

theorem digit_ne_minus {c : Char} (h : c.isDigit = true) : ¬ (c = '-') :=
  fun he => absurd (he ▸ h) (by decide)

theorem digit_ne_plus {c : Char} (h : c.isDigit = true) : ¬ (c = '+') :=
  fun he => absurd (he ▸ h) (by decide)

theorem char_toNat_inj {a b : Char} (h : a.toNat = b.toNat) : a = b :=
  Char.ext (UInt32.ext h)

theorem arrayIndex_facts {s : String} (h : isArrayIndexStr s = true) :
    s.data ≠ [] ∧ (∀ c ∈ s.data, c.isDigit = true) ∧ strToNat s < 4294967295 ∧
    (s.data.head? ≠ some '0' ∨ s = "0") := by
  simp only [isArrayIndexStr, Bool.and_eq_true] at h
  obtain ⟨⟨⟨ha, hb⟩, hc⟩, hd⟩ := h
  refine ⟨?_, fun c hc2 => List.all_eq_true.mp hb c hc2, of_decide_eq_true hd, ?_⟩
  · intro hnil
    rw [hnil] at ha
    simp at ha
  · by_cases h0 : s = "0"
    · exact Or.inr h0
    · left
      have hb : (s == "0") = false := beq_eq_false_iff_ne.mpr h0
      rw [hb, Bool.or_false] at hc
      exact bne_iff_ne.mp hc

theorem takeWhile_all {α : Type} {p : α → Bool} {l : List α}
    (h : ∀ x ∈ l, p x = true) : l.takeWhile p = l :=
  List.takeWhile_eq_self_iff.mpr h

/-- parseInt agrees with the numeral value on a canonical array index. -/
theorem canonical_parseInt {k : String} (h : isArrayIndexStr k = true) :
    jsParseInt k = some (Int.ofNat (strToNat k)) := by
  obtain ⟨hne, hdig, hlt, _⟩ := arrayIndex_facts h
  have hdw : k.data.dropWhile Char.isWhitespace = k.data := by
    cases hd2 : k.data with
    | nil => simp
    | cons c rest =>
      rw [List.dropWhile_cons,
        digit_not_ws (hdig c (hd2 ▸ List.mem_cons_self c rest))]
      simp
  unfold jsParseInt
  rw [hdw]
  cases hd : k.data with
  | nil => exact absurd hd hne
  | cons c rest =>
    have hc : c.isDigit = true := hdig c (hd ▸ List.mem_cons_self c rest)
    simp only [jsParseIntAux]
    rw [if_neg (digit_ne_minus hc), if_neg (digit_ne_plus hc)]
    unfold digitsPrefix
    rw [takeWhile_all (fun x hx => hdig x (hd ▸ hx))]
    simp [strToNat, hd]

theorem digitsVal_aux : ∀ (cs : List Char) (a : Nat),
    cs.foldl (fun n c => n * 10 + (c.toNat - 48)) a =
      a * 10 ^ cs.length + digitsVal cs := by
  intro cs
  induction cs with
  | nil => intro a; simp [digitsVal]
  | cons c rest ih =>
    intro a
    simp only [List.foldl_cons, digitsVal, List.length_cons]
    rw [ih (a * 10 + (c.toNat - 48)), ih (0 * 10 + (c.toNat - 48))]
    ring

theorem digitsVal_cons (c : Char) (rest : List Char) :
    digitsVal (c :: rest) = (c.toNat - 48) * 10 ^ rest.length + digitsVal rest := by
  unfold digitsVal
  simp only [List.foldl_cons]
  rw [digitsVal_aux]
  simp [digitsVal]

theorem digitsVal_lt (cs : List Char) (h : ∀ c ∈ cs, c.isDigit = true) :
    digitsVal cs < 10 ^ cs.length := by
  induction cs with
  | nil => simp [digitsVal]
  | cons c rest ih =>
    rw [digitsVal_cons, List.length_cons]
    have hc := digit_bounds (h c (List.mem_cons_self _ _))
    have hr := ih (fun x hx => h x (List.mem_cons_of_mem _ hx))
    have hd : c.toNat - 48 ≤ 9 := by omega
    calc (c.toNat - 48) * 10 ^ rest.length + digitsVal rest
        < (c.toNat - 48) * 10 ^ rest.length + 10 ^ rest.length := by omega
      _ = (c.toNat - 48 + 1) * 10 ^ rest.length := by ring
      _ ≤ 10 * 10 ^ rest.length := Nat.mul_le_mul_right _ (by omega)
      _ = 10 ^ (rest.length + 1) := by ring

theorem digitsVal_ge (c : Char) (rest : List Char) (hc : c.isDigit = true)
    (hne : c ≠ '0') : 10 ^ rest.length ≤ digitsVal (c :: rest) := by
  rw [digitsVal_cons]
  have hb := digit_bounds hc
  have h0 : c.toNat ≠ 48 := by
    intro he
    exact hne (char_toNat_inj (he.trans (by decide)))
  have h1 : 1 ≤ c.toNat - 48 := by omega
  calc 10 ^ rest.length = 1 * 10 ^ rest.length := by ring
    _ ≤ (c.toNat - 48) * 10 ^ rest.length := Nat.mul_le_mul_right _ h1
    _ ≤ (c.toNat - 48) * 10 ^ rest.length + digitsVal rest := Nat.le_add_right _ _

theorem digits_inj_len : ∀ (l1 l2 : List Char), l1.length = l2.length →
    (∀ c ∈ l1, c.isDigit = true) → (∀ c ∈ l2, c.isDigit = true) →
    digitsVal l1 = digitsVal l2 → l1 = l2 := by
  intro l1
  induction l1 with
  | nil =>
    intro l2 hlen _ _ _
    cases l2 with
    | nil => rfl
    | cons c r => simp at hlen
  | cons c1 r1 ih =>
    intro l2 hlen h1 h2 hv
    cases l2 with
    | nil => simp at hlen
    | cons c2 r2 =>
      simp only [List.length_cons] at hlen
      have hlen2 : r1.length = r2.length := by omega
      rw [digitsVal_cons, digitsVal_cons, hlen2] at hv
      have hb1 := digit_bounds (h1 c1 (List.mem_cons_self _ _))
      have hb2 := digit_bounds (h2 c2 (List.mem_cons_self _ _))
      have hr1 : digitsVal r1 < 10 ^ r2.length := by
        rw [← hlen2]
        exact digitsVal_lt r1 (fun x hx => h1 x (List.mem_cons_of_mem _ hx))
      have hr2 : digitsVal r2 < 10 ^ r2.length :=
        digitsVal_lt r2 (fun x hx => h2 x (List.mem_cons_of_mem _ hx))
      have hBpos : 0 < 10 ^ r2.length := pow_pos (by omega) _
      have e1 : ((c1.toNat - 48) * 10 ^ r2.length + digitsVal r1) / 10 ^ r2.length =
          c1.toNat - 48 := by
        rw [Nat.mul_comm, Nat.mul_add_div hBpos, Nat.div_eq_of_lt hr1, Nat.add_zero]
      have e2 : ((c2.toNat - 48) * 10 ^ r2.length + digitsVal r2) / 10 ^ r2.length =
          c2.toNat - 48 := by
        rw [Nat.mul_comm, Nat.mul_add_div hBpos, Nat.div_eq_of_lt hr2, Nat.add_zero]
      have hd : c1.toNat - 48 = c2.toNat - 48 := by
        rw [← e1, ← e2, hv]
      have hc12 : c1 = c2 := char_toNat_inj (by omega)
      have hveq : digitsVal r1 = digitsVal r2 := by
        rw [hd] at hv
        exact Nat.add_left_cancel hv
      rw [hc12, ih r2 hlen2 (fun x hx => h1 x (List.mem_cons_of_mem _ hx))
        (fun x hx => h2 x (List.mem_cons_of_mem _ hx)) hveq]

theorem string_data_eq {s1 s2 : String} (h : s1.data = s2.data) : s1 = s2 := by
  have := congrArg String.mk h
  exact this

/-- No two distinct canonical array indices denote the same number. -/
theorem canonical_inj {s1 s2 : String} (h1 : isArrayIndexStr s1 = true)
    (h2 : isArrayIndexStr s2 = true) (hv : strToNat s1 = strToNat s2) : s1 = s2 := by
  obtain ⟨hne1, hdig1, hlt1, hz1⟩ := arrayIndex_facts h1
  obtain ⟨hne2, hdig2, hlt2, hz2⟩ := arrayIndex_facts h2
  unfold strToNat at hv
  cases hd1 : s1.data with
  | nil => exact absurd hd1 hne1
  | cons c1 r1 =>
    cases hd2 : s2.data with
    | nil => exact absurd hd2 hne2
    | cons c2 r2 =>
      rw [hd1, hd2] at hv
      have hzval : ∀ (t : String) (c : Char) (r : List Char), t = "0" →
          t.data = c :: r → digitsVal (c :: r) = 0 := by
        intro t c r h0 hdt
        have hdd : c :: r = ['0'] := by
          rw [← hdt, h0]
        rw [hdd]
        decide
      have hchar : ∀ (t : String) (c : Char) (r : List Char),
          (t.data.head? ≠ some '0' ∨ t = "0") → ¬ (t = "0") →
          t.data = c :: r → c ≠ '0' := by
        intro t c r hz h0 hdt
        rcases hz with hz | hz
        · rw [hdt] at hz
          simp at hz
          exact hz
        · exact absurd hz h0
      by_cases h01 : s1 = "0" <;> by_cases h02 : s2 = "0"
      · rw [h01, h02]
      · exfalso
        have hc2 : c2 ≠ '0' := hchar s2 c2 r2 hz2 h02 hd2
        have hge := digitsVal_ge c2 r2 (hdig2 c2 (hd2 ▸ List.mem_cons_self _ _)) hc2
        have h0 := hzval s1 c1 r1 h01 hd1
        have hpos : 0 < 10 ^ r2.length := pow_pos (by omega) _
        omega
      · exfalso
        have hc1 : c1 ≠ '0' := hchar s1 c1 r1 hz1 h01 hd1
        have hge := digitsVal_ge c1 r1 (hdig1 c1 (hd1 ▸ List.mem_cons_self _ _)) hc1
        have h0 := hzval s2 c2 r2 h02 hd2
        have hpos : 0 < 10 ^ r1.length := pow_pos (by omega) _
        omega
      · have hc1 : c1 ≠ '0' := hchar s1 c1 r1 hz1 h01 hd1
        have hc2 : c2 ≠ '0' := hchar s2 c2 r2 hz2 h02 hd2
        have hgl : r1.length = r2.length := by
          by_contra hll
          rcases Nat.lt_or_ge r1.length r2.length with hlt | hge2
          · have hub := digitsVal_lt (c1 :: r1) (fun x hx => hdig1 x (hd1 ▸ hx))
            have hlb := digitsVal_ge c2 r2
              (hdig2 c2 (hd2 ▸ List.mem_cons_self _ _)) hc2
            have hmono : 10 ^ (c1 :: r1).length ≤ 10 ^ r2.length :=
              Nat.pow_le_pow_right (by omega) (by simp only [List.length_cons]; omega)
            omega
          · have hlt2 : r2.length < r1.length := by omega
            have hub := digitsVal_lt (c2 :: r2) (fun x hx => hdig2 x (hd2 ▸ hx))
            have hlb := digitsVal_ge c1 r1
              (hdig1 c1 (hd1 ▸ List.mem_cons_self _ _)) hc1
            have hmono : 10 ^ (c2 :: r2).length ≤ 10 ^ r1.length :=
              Nat.pow_le_pow_right (by omega) (by simp only [List.length_cons]; omega)
            omega
        have heq := digits_inj_len (c1 :: r1) (c2 :: r2)
          (by simp only [List.length_cons, hgl]) (fun x hx => hdig1 x (hd1 ▸ hx))
          (fun x hx => hdig2 x (hd2 ▸ hx)) hv
        apply string_data_eq
        rw [hd1, hd2, heq]

/- Part D: the navigation invariant and the single-write specification. -/

/-- The value is a JavaScript object. -/
def isObjV (v : JVal) : Prop := ∃ fs, v = JVal.obj fs

/-- The value is a JavaScript array. -/
def isArrV (v : JVal) : Prop := ∃ es ps, v = JVal.arr es ps

/-- The value is a container, i.e. assigning a property on it succeeds. -/
def isContainer (v : JVal) : Prop := isObjV v ∨ isArrV v

/-- A write below a node can fill a container but never change which kind
of value sits at an untouched path. -/
def sameCtor (a b : JVal) : Prop := (isObjV a → isObjV b) ∧ (isArrV a → isArrV b)

theorem sameCtor_refl (w : JVal) : sameCtor w w := ⟨id, id⟩

/-- The navigation loop of addAtPath stays on existing containers: each
intermediate key is present (an object field, or an element under a
canonical index of an array) and leads to the next node, and the node
reached last is itself a container. -/
def NavOk : JVal → List String → Prop
  | cur, [] => isContainer cur
  | cur, k :: rest =>
    match cur with
    | JVal.obj fields =>
        ∃ c, lookupField fields k = some c ∧ NavOk c rest
    | JVal.arr elems props =>
        isArrayIndexStr k = true ∧ ∃ c, elems[strToNat k]? = some c ∧ NavOk c rest
    | _ => False

theorem dropLast_append_getLastD {α : Type} (l : List α) (d : α) (h : l ≠ []) :
    l.dropLast ++ [l.getLastD d] = l := by
  rw [List.getLastD_eq_getLast?, List.getLast?_eq_getLast l h]
  exact List.dropLast_concat_getLast h

theorem getPath_obj_cons {fields : List (String × JVal)} {k : String}
    {rest : List String} {c : JVal} (hl : lookupField fields k = some c) :
    getPath (JVal.obj fields) (k :: rest) = getPath c rest := by
  simp [getPath, hl]

theorem getPath_arr_idx {elems : List JVal} {props : List (String × JVal)}
    {k : String} {rest : List String} {c : JVal} (hcan : isArrayIndexStr k = true)
    (hel : elems[strToNat k]? = some c) :
    getPath (JVal.arr elems props) (k :: rest) = getPath c rest := by
  simp [getPath, hcan, hel]

theorem getPath_arr_prop {elems : List JVal} {props : List (String × JVal)}
    {k : String} {rest : List String} {c : JVal} (hcan : isArrayIndexStr k = false)
    (hl : lookupField props k = some c) :
    getPath (JVal.arr elems props) (k :: rest) = getPath c rest := by
  simp [getPath, hcan, hl]

theorem getPath_obj_inv {fields : List (String × JVal)} {k : String}
    {rest : List String} {w : JVal}
    (h : getPath (JVal.obj fields) (k :: rest) = some w) :
    ∃ c, lookupField fields k = some c ∧ getPath c rest = some w := by
  cases hl : lookupField fields k with
  | none => simp [getPath, hl] at h
  | some c => exact ⟨c, rfl, by simpa [getPath, hl] using h⟩

theorem getPath_arr_idx_inv {elems : List JVal} {props : List (String × JVal)}
    {k : String} {rest : List String} {w : JVal} (hcan : isArrayIndexStr k = true)
    (h : getPath (JVal.arr elems props) (k :: rest) = some w) :
    ∃ c, elems[strToNat k]? = some c ∧ getPath c rest = some w := by
  cases hel : elems[strToNat k]? with
  | none => simp [getPath, hcan, hel] at h
  | some c => exact ⟨c, rfl, by simpa [getPath, hcan, hel] using h⟩

theorem getPath_arr_prop_inv {elems : List JVal} {props : List (String × JVal)}
    {k : String} {rest : List String} {w : JVal} (hcan : isArrayIndexStr k = false)
    (h : getPath (JVal.arr elems props) (k :: rest) = some w) :
    ∃ c, lookupField props k = some c ∧ getPath c rest = some w := by
  cases hl : lookupField props k with
  | none => simp [getPath, hcan, hl] at h
  | some c => exact ⟨c, rfl, by simpa [getPath, hcan, hl] using h⟩

theorem sameCtor_obj (fs fs2 : List (String × JVal)) :
    sameCtor (JVal.obj fs) (JVal.obj fs2) :=
  ⟨fun _ => ⟨fs2, rfl⟩, fun h => by
    rcases h with ⟨es, ps, he⟩
    exact JVal.noConfusion he⟩

theorem sameCtor_arr (es : List JVal) (ps : List (String × JVal)) (es2 : List JVal)
    (ps2 : List (String × JVal)) : sameCtor (JVal.arr es ps) (JVal.arr es2 ps2) :=
  ⟨fun h => by
    rcases h with ⟨fs, he⟩
    exact JVal.noConfusion he,
   fun _ => ⟨es2, ps2, rfl⟩⟩

/-- One addAtPath write, specified: when the navigation chain holds, the
write succeeds, the assigned value is readable at the full path, and every
path readable before stays readable with a value of the same constructor —
the exact old value unless the path is an ancestor of the written one. -/
theorem navWrite_spec : ∀ (ks : List String) (cur : JVal) (lastKey : String) (v : JVal),
    NavOk cur ks →
    ∃ res, navWrite cur ks lastKey v = some res ∧
      getPath res (ks ++ [lastKey]) = some v ∧
      ∀ qs w, getPath cur qs = some w → ¬ ((ks ++ [lastKey]) <+: qs) →
        ∃ w2, getPath res qs = some w2 ∧ sameCtor w w2 ∧ (¬ (qs <+: ks) → w2 = w) := by
  intro ks
  induction ks with
  | nil =>
    intro cur lastKey v hnav
    have hc : isContainer cur := hnav
    rcases hc with ⟨fields, rfl⟩ | ⟨elems, props, rfl⟩
    · refine ⟨JVal.obj (setField fields lastKey v), rfl, ?_, ?_⟩
      · rw [List.nil_append,
          getPath_obj_cons (lookupField_setField_self fields lastKey v)]
        rfl
      · intro qs w hq hnp
        rw [List.nil_append] at hnp
        cases qs with
        | nil =>
          have hw : w = JVal.obj fields := (Option.some.inj hq).symm
          subst hw
          exact ⟨_, rfl, sameCtor_obj _ _, fun hc2 => absurd List.nil_prefix hc2⟩
        | cons k2 qs2 =>
          have hk : k2 ≠ lastKey := by
            intro he
            subst he
            exact hnp ⟨qs2, rfl⟩
          obtain ⟨c, hl, hg⟩ := getPath_obj_inv hq
          refine ⟨w, ?_, sameCtor_refl w, fun _ => rfl⟩
          rw [getPath_obj_cons
            (by rw [lookupField_setField_ne fields lastKey k2 v hk]; exact hl)]
          exact hg
    · by_cases hcan : isArrayIndexStr lastKey
      · refine ⟨JVal.arr (padSet elems (strToNat lastKey) v) props, ?_, ?_, ?_⟩
        · simp [navWrite, jsSet, hcan]
        · rw [List.nil_append,
            getPath_arr_idx hcan (padSet_get_self elems (strToNat lastKey) v)]
          rfl
        · intro qs w hq hnp
          rw [List.nil_append] at hnp
          cases qs with
          | nil =>
            have hw : w = JVal.arr elems props := (Option.some.inj hq).symm
            subst hw
            exact ⟨_, rfl, sameCtor_arr _ _ _ _, fun hc2 => absurd List.nil_prefix hc2⟩
          | cons k2 qs2 =>
            have hk : k2 ≠ lastKey := by
              intro he
              subst he
              exact hnp ⟨qs2, rfl⟩
            by_cases hk2 : isArrayIndexStr k2
            · obtain ⟨c, hel, hg⟩ := getPath_arr_idx_inv hk2 hq
              have hm : strToNat k2 ≠ strToNat lastKey :=
                fun he => hk (canonical_inj hk2 hcan he)
              have hltl : strToNat k2 < elems.length :=
                (List.getElem?_eq_some_iff.mp hel).1
              refine ⟨w, ?_, sameCtor_refl w, fun _ => rfl⟩
              rw [getPath_arr_idx hk2
                (by rw [padSet_get_other elems (strToNat lastKey) (strToNat k2) v hm hltl]
                    exact hel)]
              exact hg
            · have hk2f : isArrayIndexStr k2 = false := by simpa using hk2
              obtain ⟨c, hl, hg⟩ := getPath_arr_prop_inv hk2f hq
              refine ⟨w, ?_, sameCtor_refl w, fun _ => rfl⟩
              rw [getPath_arr_prop hk2f hl]
              exact hg
      · have hcf : isArrayIndexStr lastKey = false := by simpa using hcan
        refine ⟨JVal.arr elems (setField props lastKey v), ?_, ?_, ?_⟩
        · simp [navWrite, jsSet, hcf]
        · rw [List.nil_append,
            getPath_arr_prop hcf (lookupField_setField_self props lastKey v)]
          rfl
        · intro qs w hq hnp
          rw [List.nil_append] at hnp
          cases qs with
          | nil =>
            have hw : w = JVal.arr elems props := (Option.some.inj hq).symm
            subst hw
            exact ⟨_, rfl, sameCtor_arr _ _ _ _, fun hc2 => absurd List.nil_prefix hc2⟩
          | cons k2 qs2 =>
            have hk : k2 ≠ lastKey := by
              intro he
              subst he
              exact hnp ⟨qs2, rfl⟩
            by_cases hk2 : isArrayIndexStr k2
            · obtain ⟨c, hel, hg⟩ := getPath_arr_idx_inv hk2 hq
              refine ⟨w, ?_, sameCtor_refl w, fun _ => rfl⟩
              rw [getPath_arr_idx hk2 hel]
              exact hg
            · have hk2f : isArrayIndexStr k2 = false := by simpa using hk2
              obtain ⟨c, hl, hg⟩ := getPath_arr_prop_inv hk2f hq
              refine ⟨w, ?_, sameCtor_refl w, fun _ => rfl⟩
              rw [getPath_arr_prop hk2f
                (by rw [lookupField_setField_ne props lastKey k2 v hk]; exact hl)]
              exact hg
  | cons k rest ih =>
    intro cur lastKey v hnav
    cases cur with
    | obj fields =>
      have h' : ∃ c, lookupField fields k = some c ∧ NavOk c rest := hnav
      obtain ⟨c, hlook, hnav2⟩ := h'
      obtain ⟨resc, hrc, hgc, hframec⟩ := ih c lastKey v hnav2
      refine ⟨JVal.obj (setField fields k resc), ?_, ?_, ?_⟩
      · simp only [navWrite, hlook, Option.getD_some, hrc, Option.map_some']
      · rw [List.cons_append, getPath_obj_cons (lookupField_setField_self fields k resc)]
        exact hgc
      · intro qs w hq hnp
        rw [List.cons_append] at hnp
        cases qs with
        | nil =>
          have hw : w = JVal.obj fields := (Option.some.inj hq).symm
          subst hw
          exact ⟨_, rfl, sameCtor_obj _ _, fun hc2 => absurd List.nil_prefix hc2⟩
        | cons k2 qs2 =>
          obtain ⟨c2, hl2, hg2⟩ := getPath_obj_inv hq
          by_cases hk2 : k2 = k
          · subst hk2
            have hcc : c2 = c := by
              have hx := hlook
              rw [hl2] at hx
              exact Option.some.inj hx
            subst hcc
            have hnp2 : ¬ ((rest ++ [lastKey]) <+: qs2) :=
              fun hpre => hnp (List.cons_prefix_cons.mpr ⟨rfl, hpre⟩)
            obtain ⟨w2, hw2, hsc, hex⟩ := hframec qs2 w hg2 hnp2
            refine ⟨w2, ?_, hsc, ?_⟩
            · rw [getPath_obj_cons (lookupField_setField_self fields k2 resc)]
              exact hw2
            · intro hnq
              exact hex (fun hpre => hnq (List.cons_prefix_cons.mpr ⟨rfl, hpre⟩))
          · refine ⟨w, ?_, sameCtor_refl w, fun _ => rfl⟩
            rw [getPath_obj_cons
              (by rw [lookupField_setField_ne fields k k2 resc hk2]; exact hl2)]
            exact hg2
    | arr elems props =>
      have h' : isArrayIndexStr k = true ∧
          ∃ c, elems[strToNat k]? = some c ∧ NavOk c rest := hnav
      obtain ⟨hcan, c, hel, hnav2⟩ := h'
      have hlt : strToNat k < elems.length := (List.getElem?_eq_some_iff.mp hel).1
      obtain ⟨resc, hrc, hgc, hframec⟩ := ih c lastKey v hnav2
      have hfacts := arrayIndex_facts hcan
      refine ⟨JVal.arr (elems.set (strToNat k) resc) props, ?_, ?_, ?_⟩
      · have hcoe : Int.ofNat (strToNat k) = ((strToNat k : Nat) : Int) := rfl
        have h0le : (0 : Int) ≤ Int.ofNat (strToNat k) := by rw [hcoe]; omega
        have hlt32 : Int.ofNat (strToNat k) < 4294967295 := by
          rw [hcoe]
          have hx := hfacts.2.2.1
          omega
        have htn : (Int.ofNat (strToNat k)).toNat = strToNat k := rfl
        simp only [navWrite, canonical_parseInt hcan, htn]
        rw [if_pos ⟨h0le, hlt32⟩, if_pos hlt, hel]
        simp [hrc]
      · rw [List.cons_append, getPath_arr_idx hcan (List.getElem?_set_self hlt)]
        exact hgc
      · intro qs w hq hnp
        rw [List.cons_append] at hnp
        cases qs with
        | nil =>
          have hw : w = JVal.arr elems props := (Option.some.inj hq).symm
          subst hw
          exact ⟨_, rfl, sameCtor_arr _ _ _ _, fun hc2 => absurd List.nil_prefix hc2⟩
        | cons k2 qs2 =>
          by_cases hk2 : k2 = k
          · subst hk2
            obtain ⟨c2, hel2, hg2⟩ := getPath_arr_idx_inv hcan hq
            have hcc : c2 = c := by
              have hx := hel
              rw [hel2] at hx
              exact Option.some.inj hx
            subst hcc
            have hnp2 : ¬ ((rest ++ [lastKey]) <+: qs2) :=
              fun hpre => hnp (List.cons_prefix_cons.mpr ⟨rfl, hpre⟩)
            obtain ⟨w2, hw2, hsc, hex⟩ := hframec qs2 w hg2 hnp2
            refine ⟨w2, ?_, hsc, ?_⟩
            · rw [getPath_arr_idx hcan (List.getElem?_set_self hlt)]
              exact hw2
            · intro hnq
              exact hex (fun hpre => hnq (List.cons_prefix_cons.mpr ⟨rfl, hpre⟩))
          · by_cases hk2can : isArrayIndexStr k2
            · obtain ⟨c2, hel2, hg2⟩ := getPath_arr_idx_inv hk2can hq
              have hm : strToNat k2 ≠ strToNat k :=
                fun he => hk2 (canonical_inj hk2can hcan he)
              refine ⟨w, ?_, sameCtor_refl w, fun _ => rfl⟩
              rw [getPath_arr_idx hk2can
                (by rw [List.getElem?_set_ne (Ne.symm hm)]; exact hel2)]
              exact hg2
            · have hk2f : isArrayIndexStr k2 = false := by simpa using hk2can
              obtain ⟨c2, hl2, hg2⟩ := getPath_arr_prop_inv hk2f hq
              refine ⟨w, ?_, sameCtor_refl w, fun _ => rfl⟩
              rw [getPath_arr_prop hk2f hl2]
              exact hg2
    | str s => exact False.elim hnav
    | jint i => exact False.elim hnav
    | jfloat s => exact False.elim hnav
    | nan => exact False.elim hnav
    | jbool b => exact False.elim hnav
    | jnull => exact False.elim hnav
    | undef => exact False.elim hnav

/- Part E: chaining the per-row facts into the full reconstruction. -/

/-- The navigation chain follows from per-prefix facts about the root of
the walk: the root is a container, every nonempty prefix of the walked
path reads a container, and whenever a prefix reads an array the next
component is a canonical index. -/
theorem NavOk_steps : ∀ (ks : List String) (cur : JVal),
    isContainer cur →
    (∀ p, p <+: ks → p ≠ [] → ∃ w, getPath cur p = some w ∧ isContainer w) →
    (∀ p k2 rest2, ks = p ++ k2 :: rest2 →
       (∃ es ps, getPath cur p = some (JVal.arr es ps)) → isArrayIndexStr k2 = true) →
    NavOk cur ks := by
  intro ks
  induction ks with
  | nil =>
    intro cur hcont _ _
    exact hcont
  | cons k rest ih =>
    intro cur hcont hpref harr
    rcases hcont with ⟨fields, rfl⟩ | ⟨elems, props, rfl⟩
    · obtain ⟨w, hw, hcw⟩ := hpref [k] ⟨rest, rfl⟩ (by simp)
      obtain ⟨c, hl, hgc⟩ := getPath_obj_inv hw
      have hcw2 : isContainer c := by
        have hcw3 : c = w := Option.some.inj hgc
        rw [hcw3]
        exact hcw
      show ∃ c2, lookupField fields k = some c2 ∧ NavOk c2 rest
      refine ⟨c, hl, ih c hcw2 ?_ ?_⟩
      · intro p hp hpne
        obtain ⟨w2, hw2, hcw4⟩ :=
          hpref (k :: p) (List.cons_prefix_cons.mpr ⟨rfl, hp⟩) (by simp)
        rw [getPath_obj_cons hl] at hw2
        exact ⟨w2, hw2, hcw4⟩
      · intro p k2 rest2 hrest harrp
        refine harr (k :: p) k2 rest2 (by rw [hrest, List.cons_append]) ?_
        rw [getPath_obj_cons hl]
        exact harrp
    · have hcank : isArrayIndexStr k = true := harr [] k rest rfl ⟨elems, props, rfl⟩
      obtain ⟨w, hw, hcw⟩ := hpref [k] ⟨rest, rfl⟩ (by simp)
      obtain ⟨c, hel, hgc⟩ := getPath_arr_idx_inv hcank hw
      have hcw2 : isContainer c := by
        have hcw3 : c = w := Option.some.inj hgc
        rw [hcw3]
        exact hcw
      show isArrayIndexStr k = true ∧ ∃ c2, elems[strToNat k]? = some c2 ∧ NavOk c2 rest
      refine ⟨hcank, c, hel, ih c hcw2 ?_ ?_⟩
      · intro p hp hpne
        obtain ⟨w2, hw2, hcw4⟩ :=
          hpref (k :: p) (List.cons_prefix_cons.mpr ⟨rfl, hp⟩) (by simp)
        rw [getPath_arr_idx hcank hel] at hw2
        exact ⟨w2, hw2, hcw4⟩
      · intro p k2 rest2 hrest harrp
        refine harr (k :: p) k2 rest2 (by rw [hrest, List.cons_append]) ?_
        rw [getPath_arr_idx hcank hel]
        exact harrp

theorem decodeOpt_array {r : MapOption} (h : r.type = "array") :
    decodeOpt r = some (JVal.arr [] []) := by
  simp [decodeOpt, h]

theorem decodeOpt_object {r : MapOption} (h : r.type = "object") :
    decodeOpt r = some (JVal.obj []) := by
  simp [decodeOpt, h]

theorem decodeOpt_prim {r : MapOption} (hrec : typeRecognized r) (ha : ¬ r.type = "array")
    (ho : ¬ r.type = "object") (hnum : r.type = "number" → r.value ≠ "") :
    decodeOpt r = some (decodePrim r) := by
  rcases hrec with h | h | h | h | h | h
  · exact absurd h ha
  · exact absurd h ho
  · have hv := hnum h
    simp [decodeOpt, decodePrim, h, hv]
  · simp [decodeOpt, decodePrim, h]
  · simp [decodeOpt, decodePrim, h]
  · simp [decodeOpt, decodePrim, h]

/-- With pairwise distinct paths, a path determines its row. -/
theorem pairwise_ne_path_unique {rows : List MapOption}
    (hp : rows.Pairwise (fun a b => a.path ≠ b.path)) :
    ∀ a ∈ rows, ∀ b ∈ rows, a.path = b.path → a = b := by
  induction rows with
  | nil => simp
  | cons x t ih =>
    intro a ha b hb heq
    rcases List.mem_cons.mp ha with rfl | ha2 <;> rcases List.mem_cons.mp hb with rfl | hb2
    · rfl
    · exact absurd heq ((List.pairwise_cons.mp hp).1 b hb2)
    · exact absurd heq.symm ((List.pairwise_cons.mp hp).1 a ha2)
    · exact ih (List.pairwise_cons.mp hp).2 a ha2 b hb2 heq

/-- The invariant of the forEach over the sorted rows: processing the
remaining rows succeeds, keeps the root an object, and makes every row
processed so far and every remaining row hold in the final tree. -/
theorem runAll_inv (rows : List MapOption) (hok : rowsOk rows) :
    ∀ (todo done : List MapOption) (res : JVal),
      List.Sorted optionLe (done ++ todo) →
      rows.Perm (done ++ todo) →
      (∃ fs, res = JVal.obj fs) →
      (∀ r ∈ done, holdsRow rows res r) →
      ∃ final, runAll res todo = some final ∧ (∃ fs, final = JVal.obj fs) ∧
        ∀ r ∈ done ++ todo, holdsRow rows final r := by
  obtain ⟨hdist, hclosed, htypes, harridx⟩ := hok
  intro todo
  induction todo with
  | nil =>
    intro done res hsort hperm hobj hall
    exact ⟨res, rfl, hobj, by simpa using hall⟩
  | cons r0 todo ih =>
    intro done res hsort hperm hobj hall
    have hr0rows : r0 ∈ rows := hperm.mem_iff.mpr (by simp)
    have hcompsne : splitOnDot r0.path ≠ [] := splitOnDot_ne_nil r0.path
    have hsplit : (splitOnDot r0.path).dropLast ++ [(splitOnDot r0.path).getLastD ""] =
        splitOnDot r0.path := dropLast_append_getLastD _ "" hcompsne
    have hkslen : (splitOnDot r0.path).dropLast.length = (splitOnDot r0.path).length - 1 :=
      List.length_dropLast _
    have hclen : 1 ≤ (splitOnDot r0.path).length := by
      cases hc : splitOnDot r0.path with
      | nil => exact absurd hc hcompsne
      | cons a t => simp
    have hsortparts := List.pairwise_append.mp hsort
    have hdistarr : (done ++ r0 :: todo).Pairwise (fun a b => a.path ≠ b.path) :=
      (hperm.pairwise_iff (fun h he => h he.symm)).mp hdist
    have hdistparts := List.pairwise_append.mp hdistarr
    have hnotpre : ∀ r ∈ done, ¬ (splitOnDot r0.path <+: splitOnDot r.path) := by
      intro r hr hpre
      by_cases heq : splitOnDot r0.path = splitOnDot r.path
      · exact hdistparts.2.2 r hr r0 (List.mem_cons_self _ _) (splitOnDot_inj heq).symm
      · have hle2 : pathLeB r.path.data r0.path.data = true :=
          hsortparts.2.2 r hr r0 (List.mem_cons_self _ _)
        have hfalse := (prefix_path_lt hpre heq).1
        rw [hle2] at hfalse
        exact Bool.noConfusion hfalse
    have hanc : ∀ p, p <+: (splitOnDot r0.path).dropLast → p ≠ [] →
        ∃ a ∈ done, splitOnDot a.path = p ∧ (a.type = "array" ∨ a.type = "object") ∧
          holdsRow rows res a := by
      intro p hp hpne
      have hpc : p <+: splitOnDot r0.path := hp.trans (List.dropLast_prefix _)
      have hplen : p.length ≤ (splitOnDot r0.path).length - 1 := by
        have hx := hp.length_le
        rw [hkslen] at hx
        exact hx
      have hp1 : 1 ≤ p.length := by
        cases hc : p with
        | nil => exact absurd hc hpne
        | cons a t => simp
      have hptake : p = (splitOnDot r0.path).take p.length := List.prefix_iff_eq_take.mp hpc
      have hqmem : joinComps p ∈ properPrefixStrings r0.path := by
        unfold properPrefixStrings
        refine List.mem_map.mpr ⟨p.length - 1, List.mem_range.mpr (by omega), ?_⟩
        rw [Nat.sub_add_cancel hp1, ← hptake]
      obtain ⟨a, harows, hapath, hatype⟩ := hclosed r0 hr0rows (joinComps p) hqmem
      have haspl : splitOnDot a.path = p := by
        rw [hapath]
        refine splitOnDot_joinComps p hpne ?_
        intro st hst
        exact splitOnDot_no_dot r0.path st (hpc.sublist.mem hst)
      have hadone : a ∈ done := by
        rcases List.mem_append.mp (hperm.mem_iff.mp harows) with h | h
        · exact h
        · exfalso
          rcases List.mem_cons.mp h with rfl | h2
          · have hll := congrArg List.length haspl
            omega
          · have hle2 : pathLeB r0.path.data a.path.data = true :=
              (List.pairwise_cons.mp hsortparts.2.1).1 a h2
            have hne2 : splitOnDot a.path ≠ splitOnDot r0.path := by
              intro he
              have hll := congrArg List.length he
              rw [haspl] at hll
              omega
            have hpre2 : splitOnDot a.path <+: splitOnDot r0.path := by
              rw [haspl]
              exact hpc
            have hfalse := (prefix_path_lt hpre2 hne2).1
            rw [hle2] at hfalse
            exact Bool.noConfusion hfalse
      exact ⟨a, hadone, haspl, hatype, hall a hadone⟩
    obtain ⟨fs0, hfs0⟩ := hobj
    have hnav : NavOk res (splitOnDot r0.path).dropLast := by
      refine NavOk_steps _ res (Or.inl ⟨fs0, hfs0⟩) ?_ ?_
      · intro p hp hpne
        obtain ⟨a, hadone, haspl, hatype, hahold⟩ := hanc p hp hpne
        rcases hatype with hta | hto
        · have hh := hahold
          simp only [holdsRow, hta] at hh
          obtain ⟨⟨es, ps, hge⟩, _⟩ := hh
          rw [haspl] at hge
          exact ⟨JVal.arr es ps, hge, Or.inr ⟨es, ps, rfl⟩⟩
        · have hh := hahold
          simp only [holdsRow, hto] at hh
          obtain ⟨⟨fs1, hge⟩, _⟩ := hh
          rw [haspl] at hge
          exact ⟨JVal.obj fs1, hge, Or.inl ⟨fs1, rfl⟩⟩
      · intro p k2 rest2 hks harrp
        by_cases hpe : p = []
        · subst hpe
          rcases harrp with ⟨es, ps, hge⟩
          rw [hfs0] at hge
          exact JVal.noConfusion (Option.some.inj hge)
        · have hppre : p <+: (splitOnDot r0.path).dropLast := ⟨k2 :: rest2, hks.symm⟩
          obtain ⟨a, hadone, haspl, hatype, hahold⟩ := hanc p hppre hpe
          have hta : a.type = "array" := by
            rcases hatype with h | h
            · exact h
            · exfalso
              have hh := hahold
              simp only [holdsRow, h] at hh
              obtain ⟨⟨fs1, hge⟩, _⟩ := hh
              rw [haspl] at hge
              rcases harrp with ⟨es, ps, hge2⟩
              rw [hge] at hge2
              exact JVal.noConfusion (Option.some.inj hge2)
          have hchildpre : p ++ [k2] <+: (splitOnDot r0.path).dropLast := by
            refine ⟨rest2, ?_⟩
            rw [List.append_assoc]
            exact hks.symm
          obtain ⟨a2, ha2done, ha2spl, _, _⟩ := hanc (p ++ [k2]) hchildpre (by simp)
          have ha2rows : a2 ∈ rows :=
            hperm.mem_iff.mpr (List.mem_append.mpr (Or.inl ha2done))
          have harows2 : a ∈ rows :=
            hperm.mem_iff.mpr (List.mem_append.mpr (Or.inl hadone))
          have hidx := harridx a harows2 hta a2 ha2rows
            (by rw [haspl, ha2spl]; exact ⟨[k2], rfl⟩)
            (by rw [haspl, ha2spl]; simp)
          rw [ha2spl, List.getLastD_concat] at hidx
          exact hidx
    have hr0types := htypes r0 hr0rows
    obtain ⟨v0, hdec, hv0⟩ : ∃ v0, decodeOpt r0 = some v0 ∧
        ((r0.type = "array" ∧ v0 = JVal.arr [] []) ∨
         (r0.type = "object" ∧ v0 = JVal.obj []) ∨
         (¬ r0.type = "array" ∧ ¬ r0.type = "object" ∧ v0 = decodePrim r0)) := by
      by_cases hta0 : r0.type = "array"
      · exact ⟨_, decodeOpt_array hta0, Or.inl ⟨hta0, rfl⟩⟩
      · by_cases hto0 : r0.type = "object"
        · exact ⟨_, decodeOpt_object hto0, Or.inr (Or.inl ⟨hto0, rfl⟩)⟩
        · exact ⟨_, decodeOpt_prim hr0types.1 hta0 hto0 hr0types.2,
            Or.inr (Or.inr ⟨hta0, hto0, rfl⟩)⟩
    obtain ⟨res2, hnw, hgw, hframe⟩ :=
      navWrite_spec (splitOnDot r0.path).dropLast res ((splitOnDot r0.path).getLastD "") v0 hnav
    have hstep : addAtPath res r0 = some res2 := by
      simp only [addAtPath, hdec]
      exact hnw
    have hres2obj : ∃ fs, res2 = JVal.obj fs := by
      have hq : getPath res [] = some res := rfl
      have hnp : ¬ (((splitOnDot r0.path).dropLast ++ [(splitOnDot r0.path).getLastD ""]) <+:
          ([] : List String)) := by
        rw [hsplit]
        intro hcon
        exact hcompsne (List.prefix_nil.mp hcon)
      obtain ⟨w2, hw2, hsc, _⟩ := hframe [] res hq hnp
      obtain ⟨fs2, hfs2⟩ := hsc.1 ⟨fs0, hfs0⟩
      have hwr : res2 = w2 := Option.some.inj hw2
      exact ⟨fs2, by rw [hwr]; exact hfs2⟩
    have htrans : ∀ r ∈ done, holdsRow rows res2 r := by
      intro r hr
      have hold := hall r hr
      have hnpre : ¬ (((splitOnDot r0.path).dropLast ++
          [(splitOnDot r0.path).getLastD ""]) <+: splitOnDot r.path) := by
        rw [hsplit]
        exact hnotpre r hr
      by_cases hta : r.type = "array"
      · simp only [holdsRow, hta] at hold ⊢
        obtain ⟨⟨es, ps, hge⟩, hdf⟩ := hold
        obtain ⟨w2, hw2, hsc, hex⟩ := hframe (splitOnDot r.path) (JVal.arr es ps) hge hnpre
        constructor
        · obtain ⟨es2, ps2, hw2arr⟩ := hsc.2 ⟨es, ps, rfl⟩
          exact ⟨es2, ps2, by rw [← hw2arr]; exact hw2⟩
        · intro hdfree
          have hnqs : ¬ (splitOnDot r.path <+: (splitOnDot r0.path).dropLast) := by
            intro hq2
            have hq3 : splitOnDot r.path <+: splitOnDot r0.path :=
              hq2.trans (List.dropLast_prefix _)
            have hlen : (splitOnDot r.path).length ≤ (splitOnDot r0.path).length - 1 := by
              have hx := hq2.length_le
              rw [hkslen] at hx
              exact hx
            refine hdfree r0 hr0rows ⟨hq3, ?_⟩
            intro he
            have hll := congrArg List.length he
            omega
          have hge0 := hdf hdfree
          rw [hge] at hge0
          have hee := Option.some.inj hge0
          rw [hex hnqs] at hw2
          rw [hee] at hw2
          exact hw2
      · by_cases hto : r.type = "object"
        · simp only [holdsRow, hto] at hold ⊢
          obtain ⟨⟨fs1, hge⟩, hdf⟩ := hold
          obtain ⟨w2, hw2, hsc, hex⟩ := hframe (splitOnDot r.path) (JVal.obj fs1) hge hnpre
          constructor
          · obtain ⟨fs2, hw2obj⟩ := hsc.1 ⟨fs1, rfl⟩
            exact ⟨fs2, by rw [← hw2obj]; exact hw2⟩
          · intro hdfree
            have hnqs : ¬ (splitOnDot r.path <+: (splitOnDot r0.path).dropLast) := by
              intro hq2
              have hq3 : splitOnDot r.path <+: splitOnDot r0.path :=
                hq2.trans (List.dropLast_prefix _)
              have hlen : (splitOnDot r.path).length ≤ (splitOnDot r0.path).length - 1 := by
                have hx := hq2.length_le
                rw [hkslen] at hx
                exact hx
              refine hdfree r0 hr0rows ⟨hq3, ?_⟩
              intro he
              have hll := congrArg List.length he
              omega
            have hge0 := hdf hdfree
            rw [hge] at hge0
            have hee := Option.some.inj hge0
            rw [hex hnqs] at hw2
            rw [hee] at hw2
            exact hw2
        · simp only [holdsRow, hta, hto, if_false] at hold ⊢
          have hnqs : ¬ (splitOnDot r.path <+: (splitOnDot r0.path).dropLast) := by
            intro hq2
            obtain ⟨a, hadone, haspl, hatype, _⟩ :=
              hanc (splitOnDot r.path) hq2 (splitOnDot_ne_nil _)
            have har : a = r := by
              refine pairwise_ne_path_unique hdist a ?_ r ?_ (splitOnDot_inj haspl)
              · exact hperm.mem_iff.mpr (List.mem_append.mpr (Or.inl hadone))
              · exact hperm.mem_iff.mpr (List.mem_append.mpr (Or.inl hr))
            rcases hatype with h | h
            · rw [har] at h
              exact hta h
            · rw [har] at h
              exact hto h
          obtain ⟨w2, hw2, hsc, hex⟩ := hframe (splitOnDot r.path) (decodePrim r) hold hnpre
          rw [hex hnqs] at hw2
          exact hw2
    have hnew : holdsRow rows res2 r0 := by
      have hgw2 : getPath res2 (splitOnDot r0.path) = some v0 := by
        rw [← hsplit]
        exact hgw
      rcases hv0 with ⟨hta0, hveq⟩ | ⟨hto0, hveq⟩ | ⟨hta0, hto0, hveq⟩
      · rw [hveq] at hgw2
        simp only [holdsRow, hta0]
        exact ⟨⟨[], [], hgw2⟩, fun _ => hgw2⟩
      · rw [hveq] at hgw2
        simp only [holdsRow, hto0]
        exact ⟨⟨[], hgw2⟩, fun _ => hgw2⟩
      · rw [hveq] at hgw2
        simp only [holdsRow, hta0, hto0, if_false]
        exact hgw2
    have hsort2 : List.Sorted optionLe ((done ++ [r0]) ++ todo) := by
      rw [List.append_assoc]
      exact hsort
    have hperm2 : rows.Perm ((done ++ [r0]) ++ todo) := by
      rw [List.append_assoc]
      exact hperm
    have hall2 : ∀ r ∈ done ++ [r0], holdsRow rows res2 r := by
      intro r hr
      rcases List.mem_append.mp hr with h | h
      · exact htrans r h
      · have hre := List.mem_singleton.mp h
        subst hre
        exact hnew
    obtain ⟨final, hrun, hfobj, hfall⟩ := ih (done ++ [r0]) res2 hsort2 hperm2 hres2obj hall2
    refine ⟨final, ?_, hfobj, ?_⟩
    · show runAll res (r0 :: todo) = some final
      simp only [runAll, hstep]
      exact hrun
    · intro r hr
      apply hfall
      rcases List.mem_append.mp hr with h | h
      · exact List.mem_append.mpr (Or.inl (List.mem_append.mpr (Or.inl h)))
      · rcases List.mem_cons.mp h with rfl | h2
        · exact List.mem_append.mpr (Or.inl (List.mem_append.mpr (Or.inr (by simp))))
        · exact List.mem_append.mpr (Or.inr h2)

/-- C1: for every list of widget option rows whose paths are pairwise
distinct and prefix-closed (every proper dotted ancestor of each row's
path occurs as a row of type array or object), whose types are all
recognized, whose number rows have nonempty values, and whose rows below
an array-typed row are keyed by canonical array indices, mapOptions
returns a nested object in which each row's path holds its row's value
decoded by its declared type: a number is parsed as a float when the
value contains a dot and with parseInt otherwise, a boolean becomes the
comparison of the value with "true", a string keeps the value, null
becomes null, and an array or object row's path holds a container of the
corresponding kind — exactly the fresh empty one when no other row's
path extends it. -/
theorem mapOptions_spec (rows : List MapOption) (h : rowsOk rows) :
    ∃ res fs, mapOptions rows = some res ∧ res = JVal.obj fs ∧
      ∀ r ∈ rows, holdsRow rows res r := by
  have hsorted : List.Sorted optionLe (List.insertionSort optionLe rows) :=
    List.sorted_insertionSort optionLe rows
  have hperm : rows.Perm (List.insertionSort optionLe rows) :=
    (List.perm_insertionSort optionLe rows).symm
  obtain ⟨final, hrun, ⟨fs, hfs⟩, hall⟩ :=
    runAll_inv rows h (List.insertionSort optionLe rows) [] (JVal.obj [])
      (by simpa using hsorted) (by simpa using hperm) ⟨[], rfl⟩ (by simp)
  refine ⟨final, fs, hrun, hfs, ?_⟩
  intro r hr
  exact hall r (by simpa using hperm.mem_iff.mp hr)

def c1wrows : List MapOption :=
  [⟨"w1", "a", "object", ""⟩,
   ⟨"w1", "a.b", "array", ""⟩,
   ⟨"w1", "a.b.0", "string", "x"⟩,
   ⟨"w1", "n", "number", "42"⟩]

theorem mapOptions_spec_witness :
    rowsOk c1wrows ∧
    ∃ res fs, mapOptions c1wrows = some res ∧ res = JVal.obj fs ∧
      ∀ r ∈ c1wrows, holdsRow c1wrows res r :=
  ⟨by unfold rowsOk prefixClosed typeRecognized; decide,
   mapOptions_spec c1wrows (by unfold rowsOk prefixClosed typeRecognized; decide)⟩
